import Mathlib

/-!
Verification of the quantum-playground statevector simulator
(`src/unnamed/part_003`, i.e. `simulator.ts`).

The development is a shallow embedding of the TypeScript source:

* The deterministic sampler (`mulberry32`, `sampleAllQubits`) and the
  formatting helper (`bitstring`) work on JavaScript numbers and typed
  arrays.  JavaScript numbers are modelled by `JSNum`: `NaN`, the two
  infinities, and finite values as exact rationals.  All integer
  coercions (`>>> 0`, `Math.imul`, `Uint32Array` stores) are modelled
  bit-exactly with `% 2^32`; finite floating-point arithmetic is
  modelled as exact rational arithmetic (rounding is not modelled).
* The statevector engine works on `ℂ`-valued amplitude buffers.  A
  `Float64Array` pair `(re, im)` of length `2^n` becomes a function
  `ℕ → ℂ`; the in-place loops become `List.foldl` over `List.range`
  with explicit single-slot writes, preserving the source's read/write
  order.  A kernel that can `throw` returns the post-call buffer
  together with an optional error, so that "throws before any write"
  is visible in the model.
-/

/-! ## JavaScript number model -/

/-- A JavaScript `number`: `NaN`, `±Infinity`, or a finite value
(modelled as an exact rational). -/
inductive JSNum where
  | nan : JSNum
  | posInf : JSNum
  | negInf : JSNum
  | num : ℚ → JSNum
deriving DecidableEq

/-- JavaScript `+` on numbers (exact-arithmetic model of the finite case). -/
def jsAdd : JSNum → JSNum → JSNum
  | JSNum.nan, _ => JSNum.nan
  | _, JSNum.nan => JSNum.nan
  | JSNum.posInf, JSNum.negInf => JSNum.nan
  | JSNum.negInf, JSNum.posInf => JSNum.nan
  | JSNum.posInf, _ => JSNum.posInf
  | _, JSNum.posInf => JSNum.posInf
  | JSNum.negInf, _ => JSNum.negInf
  | _, JSNum.negInf => JSNum.negInf
  | JSNum.num a, JSNum.num b => JSNum.num (a + b)

/-- JavaScript `*` on numbers (exact-arithmetic model of the finite case). -/
def jsMul : JSNum → JSNum → JSNum
  | JSNum.nan, _ => JSNum.nan
  | _, JSNum.nan => JSNum.nan
  | JSNum.posInf, JSNum.posInf => JSNum.posInf
  | JSNum.posInf, JSNum.negInf => JSNum.negInf
  | JSNum.negInf, JSNum.posInf => JSNum.negInf
  | JSNum.negInf, JSNum.negInf => JSNum.posInf
  | JSNum.posInf, JSNum.num b =>
      if b = 0 then JSNum.nan else if 0 < b then JSNum.posInf else JSNum.negInf
  | JSNum.num a, JSNum.posInf =>
      if a = 0 then JSNum.nan else if 0 < a then JSNum.posInf else JSNum.negInf
  | JSNum.negInf, JSNum.num b =>
      if b = 0 then JSNum.nan else if 0 < b then JSNum.negInf else JSNum.posInf
  | JSNum.num a, JSNum.negInf =>
      if a = 0 then JSNum.nan else if 0 < a then JSNum.negInf else JSNum.posInf
  | JSNum.num a, JSNum.num b => JSNum.num (a * b)

/-- JavaScript `<=` on numbers: any comparison involving `NaN` is false. -/
def jsLe : JSNum → JSNum → Bool
  | JSNum.nan, _ => false
  | _, JSNum.nan => false
  | JSNum.negInf, _ => true
  | JSNum.posInf, JSNum.posInf => true
  | JSNum.posInf, _ => false
  | JSNum.num _, JSNum.posInf => true
  | JSNum.num _, JSNum.negInf => false
  | JSNum.num a, JSNum.num b => decide (a ≤ b)

/-- JavaScript `<` on numbers: any comparison involving `NaN` is false. -/
def jsLt : JSNum → JSNum → Bool
  | JSNum.nan, _ => false
  | _, JSNum.nan => false
  | JSNum.posInf, _ => false
  | JSNum.negInf, JSNum.negInf => false
  | JSNum.negInf, _ => true
  | JSNum.num _, JSNum.negInf => false
  | JSNum.num _, JSNum.posInf => true
  | JSNum.num a, JSNum.num b => decide (a < b)

/-- The JavaScript test `x === 0` on a number. -/
def jsEqZero : JSNum → Bool
  | JSNum.num q => decide (q = 0)
  | _ => false

/-- `Number.isFinite`. -/
def jsIsFinite : JSNum → Bool
  | JSNum.num _ => true
  | _ => false

/-- Truncation toward zero of a rational (the integer part used by `ToUint32`). -/
def ratTrunc (q : ℚ) : ℤ :=
  if q < 0 then -((-q).floor) else q.floor

/-- ECMAScript `ToUint32` (used by `seed >>> 0`): truncate toward zero,
then reduce modulo `2^32`; `NaN` and the infinities map to `0`. -/
def jsToUint32 : JSNum → ℕ
  | JSNum.num q => ((ratTrunc q) % (4294967296 : ℤ)).toNat
  | _ => 0

/-- `Math.max(0, Math.floor(shots))` with non-finite `shots` treated as `0`:
the sampler's shot-count coercion. -/
def safeShots (shots : JSNum) : ℕ :=
  match shots with
  | JSNum.num q => (max 0 q.floor).toNat
  | _ => 0

/-! ## Mulberry32 (source `mulberry32`, lines 357–365)

The source keeps the closure state `t` as a JavaScript number and relies
on every use site (`^`, `>>>`, `|`, `Math.imul`) coercing it to 32 bits.
The model carries the state already reduced modulo `2^32`, which is
value-equal at every use site under the exact-arithmetic number model. -/

/-- One call of the closure returned by `mulberry32`: advances the state
and returns the new state together with the produced value in `[0, 1)`.
`Math.imul` is multiplication truncated to 32 bits; `>>>` on a reduced
value is `Nat.shiftRight`; the final `>>> 0` is the identity because the
mixed value is already below `2^32`. -/
def mulberryNext (t0 : ℕ) : ℕ × ℚ :=
  let t := (t0 + 0x6d2b79f5) % 4294967296
  let r1 := ((t ^^^ (t >>> 15)) * (1 ||| t)) % 4294967296
  let r2 := r1 ^^^ ((r1 + (((r1 ^^^ (r1 >>> 7)) * (61 ||| r1)) % 4294967296)) % 4294967296)
  (t, ((r2 ^^^ (r2 >>> 14)) : ℚ) / 4294967296)

/-- The closure state after `j` draws, starting from `mulberry32(seed)`'s
initial state `seed >>> 0`. -/
def mulberryRun (t : ℕ) : ℕ → ℕ
  | 0 => t
  | j + 1 => (mulberryNext (mulberryRun t j)).1

/-- The `k`-th value (`k ≥ 1`) produced by the sampler's PRNG for a given seed. -/
def samplerPRNGValue (seed : JSNum) (k : ℕ) : ℚ :=
  (mulberryNext (mulberryRun (jsToUint32 seed) (k - 1))).2

/-- Reference Mulberry32, modelled from the spec's pseudocode (§4.5):
state is kept as a `uint32` and advanced by `0x6D2B79F5 mod 2^32` per
call; two xor/shift/multiply mixing rounds with multiplications modulo
`2^32`; the result is `((r XOR (r >>> 14)) as uint32) / 2^32`. -/
def mulberrySpecValue (seed : JSNum) (k : ℕ) : ℚ :=
  let state := (jsToUint32 seed + k * 0x6d2b79f5) % 4294967296
  let r1 := ((state ^^^ (state >>> 15)) * (state ||| 1)) % 4294967296
  let r2 := r1 ^^^ ((r1 + ((r1 ^^^ (r1 >>> 7)) * (r1 ||| 61))) % 4294967296)
  (((r2 ^^^ (r2 >>> 14)) % 4294967296 : ℕ) : ℚ) / 4294967296

/-! ## Sampler (source `sampleAllQubits`, lines 367–397) -/

/-- The CDF construction pass: returns `cdf` and the final running `total`.
Mirrors `total += probs[i]; cdf[i] = total` with JavaScript addition. -/
def buildCdf : List JSNum → JSNum → List JSNum × JSNum
  | [], total => ([], total)
  | p :: ps, total =>
      let t := jsAdd total p
      let rest := buildCdf ps t
      (t :: rest.1, rest.2)

/-- The final cumulative total of a probability vector (0 for an empty one). -/
def cdfTotal (probs : List JSNum) : JSNum :=
  (buildCdf probs (JSNum.num 0)).2

/-- The sampler's binary search: smallest index in `[lo, hi]` whose cdf
entry is `≥ r` under JavaScript `<=` (with all-false comparisons it
converges to `hi`).  `(lo + hi) >> 1` is `Nat` division by two here. -/
def bsearch (r : JSNum) (cdf : List JSNum) (lo hi : ℕ) : ℕ :=
  if lo < hi then
    let mid := (lo + hi) >>> 1
    if jsLe r (cdf.getD mid JSNum.nan) then bsearch r cdf lo mid
    else bsearch r cdf (mid + 1) hi
  else lo
termination_by hi - lo
decreasing_by
  · have : (lo + hi) >>> 1 < hi := by
      rw [Nat.shiftRight_one]
      omega
    omega
  · have : lo ≤ (lo + hi) >>> 1 := by
      rw [Nat.shiftRight_one]
      omega
    omega

/-- `counts[i] += 1` on a `Uint32Array`: the stored value wraps modulo `2^32`. -/
def bumpAt (c : List ℕ) (i : ℕ) : List ℕ :=
  c.set i ((c.getD i 0 + 1) % 4294967296)

/-- The shot loop: `m` remaining draws, PRNG state `t`, counters `c`. -/
def drawLoop (cdf : List JSNum) (total : JSNum) : ℕ → ℕ → List ℕ → List ℕ
  | 0, _, c => c
  | m + 1, t, c =>
      let step := mulberryNext t
      let r := jsMul (JSNum.num step.2) total
      let lo := bsearch r cdf 0 (cdf.length - 1)
      drawLoop cdf total m step.1 (bumpAt c lo)

/-- `sampleAllQubits(probs, shots, seed)`.  Counters are `Uint32Array`
entries (naturals `< 2^32` that wrap on increment). -/
def sampleAllQubits (probs : List JSNum) (shots seed : JSNum) : List ℕ :=
  let ss := safeShots shots
  let counts := List.replicate probs.length 0
  if ss = 0 ∨ probs.length = 0 then counts
  else
    let built := buildCdf probs (JSNum.num 0)
    if jsEqZero built.2 then counts
    else drawLoop built.1 built.2 ss (jsToUint32 seed) counts

/-! ## Bitstring formatting (source `bitstring`, lines 433–435) -/

/-- Big-endian binary digits of `n` (empty for `0`), with `fuel ≥ n` for
structural recursion; computes division by two from the least digit up. -/
def base2Aux : ℕ → ℕ → List Char
  | 0, _ => []
  | _ + 1, 0 => []
  | fuel + 1, n + 1 =>
      base2Aux fuel ((n + 1) / 2) ++ [if (n + 1) % 2 = 1 then '1' else '0']

/-- `index.toString(2)`: the binary numeral of `k`, MSB first (`"0"` for `0`). -/
def natToBase2 (k : ℕ) : List Char :=
  if k = 0 then ['0'] else base2Aux k k

/-- `String.prototype.padStart(n, '0')` on a character list. -/
def padStart (s : List Char) (n : ℕ) (c : Char) : List Char :=
  List.replicate (n - s.length) c ++ s

/-- `bitstring(index, nQubits)`: binary numeral left-padded with zeros. -/
def bitstring (index nQubits : ℕ) : List Char :=
  padStart (natToBase2 index) nQubits '0'

/-- Parsing a binary string, most-significant bit first. -/
def parseBinary (s : List Char) : ℕ :=
  s.foldl (fun acc c => 2 * acc + (if c = '1' then 1 else 0)) 0


/-! ## Statevector engine (source lines 1–345)

Amplitude buffers (`re`/`im` `Float64Array`s of length `2^n`) become a
single function `ℕ → ℂ`; real/imaginary components of `amp k` are the
source's `re[k]`/`im[k]`.  A kernel that can `throw` returns the
post-call buffer together with `some errorMessage`; because the source
validates before its first write, the buffer component equals the input
whenever an error is reported. -/

/-- The statevector: qubit count and amplitude buffer. -/
structure StateVector where
  nQubits : ℕ
  amp : ℕ → ℂ

/-- A 2×2 complex matrix, row major: `[[m00, m01], [m10, m11]]`. -/
structure ComplexMatrix2 where
  m00 : ℂ
  m01 : ℂ
  m10 : ℂ
  m11 : ℂ

/-- A gate operation (the source's tagged `GateOp` variant). -/
inductive GateOp where
  | H : ℕ → GateOp
  | X : ℕ → GateOp
  | Y : ℕ → GateOp
  | Z : ℕ → GateOp
  | S : ℕ → GateOp
  | T : ℕ → GateOp
  | RX : ℕ → ℝ → GateOp
  | RY : ℕ → ℝ → GateOp
  | RZ : ℕ → ℝ → GateOp
  | CNOT : ℕ → ℕ → GateOp
  | CZ : ℕ → ℕ → GateOp
  | SWAP : ℕ → ℕ → GateOp
  | MEASURE : ℕ → GateOp

/-- A circuit: qubit count and ordered steps of gate operations. -/
structure Circuit where
  nQubits : ℕ
  steps : List (List GateOp)

/-- A Bloch vector. -/
structure BlochVector where
  x : ℝ
  y : ℝ
  z : ℝ

/-- `mask(n, q) = 1 << (n - 1 - q)`: qubit `q` is the MSB-side bit. -/
def maskForQubit (nQubits qubitIndex : ℕ) : ℕ :=
  1 <<< (nQubits - 1 - qubitIndex)

/-- `zeroState(n)`: amplitude `1` at basis `0`, `0` elsewhere.  (The
source's qubit-count validation is performed by the callers modelled
here, `simulateCircuit`.) -/
def zeroState (nQubits : ℕ) : StateVector :=
  ⟨nQubits, fun k => if k = 0 then 1 else 0⟩

/-- Writing one slot of an amplitude buffer. -/
def writeAt (f : ℕ → ℂ) (k : ℕ) (v : ℂ) : ℕ → ℂ :=
  fun x => if x = k then v else f x

/-- Loop body of `applySingleQubitMatrix`: skip indices with the target
bit set; otherwise pair `i` with `j = i | mask`, read both old values,
and write `out0` to slot `i` then `out1` to slot `j`. -/
def singleQubitBody (m : ComplexMatrix2) (mask : ℕ) (f : ℕ → ℂ) (i : ℕ) : ℕ → ℂ :=
  if i &&& mask ≠ 0 then f
  else
    let j := i ||| mask
    let a := f i
    let b := f j
    writeAt (writeAt f i (m.m00 * a + m.m01 * b)) j (m.m10 * a + m.m11 * b)

/-- `applySingleQubitMatrix(state, target, m)`: validate the target, then
run the pair loop over the whole buffer. -/
noncomputable def applySingleQubitMatrix
    (state : StateVector) (target : ℕ) (m : ComplexMatrix2) :
    StateVector × Option String :=
  if ¬ target < state.nQubits then (state, some "Invalid target index")
  else
    let mask := maskForQubit state.nQubits target
    (⟨state.nQubits,
      (List.range (2 ^ state.nQubits)).foldl (singleQubitBody m mask) state.amp⟩,
     none)

/-- The H matrix, `s = 1 / √2`. -/
noncomputable def matH : ComplexMatrix2 :=
  ⟨⟨1 / Real.sqrt 2, 0⟩, ⟨1 / Real.sqrt 2, 0⟩, ⟨1 / Real.sqrt 2, 0⟩, ⟨-(1 / Real.sqrt 2), 0⟩⟩

/-- The X matrix. -/
def matX : ComplexMatrix2 := ⟨⟨0, 0⟩, ⟨1, 0⟩, ⟨1, 0⟩, ⟨0, 0⟩⟩

/-- The Y matrix. -/
def matY : ComplexMatrix2 := ⟨⟨0, 0⟩, ⟨0, -1⟩, ⟨0, 1⟩, ⟨0, 0⟩⟩

/-- The Z matrix. -/
def matZ : ComplexMatrix2 := ⟨⟨1, 0⟩, ⟨0, 0⟩, ⟨0, 0⟩, ⟨-1, 0⟩⟩

/-- The S matrix. -/
def matS : ComplexMatrix2 := ⟨⟨1, 0⟩, ⟨0, 0⟩, ⟨0, 0⟩, ⟨0, 1⟩⟩

/-- The T matrix, `c = Math.SQRT1_2 = √(1/2)`. -/
noncomputable def matT : ComplexMatrix2 :=
  ⟨⟨1, 0⟩, ⟨0, 0⟩, ⟨0, 0⟩, ⟨Real.sqrt (1 / 2), Real.sqrt (1 / 2)⟩⟩

/-- The RX(θ) matrix, `c = cos(θ/2)`, `s = sin(θ/2)`. -/
noncomputable def matRX (theta : ℝ) : ComplexMatrix2 :=
  ⟨⟨Real.cos (theta / 2), 0⟩, ⟨0, -Real.sin (theta / 2)⟩,
   ⟨0, -Real.sin (theta / 2)⟩, ⟨Real.cos (theta / 2), 0⟩⟩

/-- The RY(θ) matrix. -/
noncomputable def matRY (theta : ℝ) : ComplexMatrix2 :=
  ⟨⟨Real.cos (theta / 2), 0⟩, ⟨-Real.sin (theta / 2), 0⟩,
   ⟨Real.sin (theta / 2), 0⟩, ⟨Real.cos (theta / 2), 0⟩⟩

/-- The RZ(θ) matrix. -/
noncomputable def matRZ (theta : ℝ) : ComplexMatrix2 :=
  ⟨⟨Real.cos (theta / 2), -Real.sin (theta / 2)⟩, ⟨0, 0⟩,
   ⟨0, 0⟩, ⟨Real.cos (theta / 2), Real.sin (theta / 2)⟩⟩

/-- `applyH`. -/
noncomputable def applyH (state : StateVector) (target : ℕ) : StateVector × Option String :=
  applySingleQubitMatrix state target matH

/-- `applyX`. -/
noncomputable def applyX (state : StateVector) (target : ℕ) : StateVector × Option String :=
  applySingleQubitMatrix state target matX

/-- `applyY`. -/
noncomputable def applyY (state : StateVector) (target : ℕ) : StateVector × Option String :=
  applySingleQubitMatrix state target matY

/-- `applyZ`. -/
noncomputable def applyZ (state : StateVector) (target : ℕ) : StateVector × Option String :=
  applySingleQubitMatrix state target matZ

/-- `applyS`. -/
noncomputable def applyS (state : StateVector) (target : ℕ) : StateVector × Option String :=
  applySingleQubitMatrix state target matS

/-- `applyT`. -/
noncomputable def applyT (state : StateVector) (target : ℕ) : StateVector × Option String :=
  applySingleQubitMatrix state target matT

/-- `applyRX`. -/
noncomputable def applyRX (state : StateVector) (target : ℕ) (theta : ℝ) :
    StateVector × Option String :=
  applySingleQubitMatrix state target (matRX theta)

/-- `applyRY`. -/
noncomputable def applyRY (state : StateVector) (target : ℕ) (theta : ℝ) :
    StateVector × Option String :=
  applySingleQubitMatrix state target (matRY theta)

/-- `applyRZ`. -/
noncomputable def applyRZ (state : StateVector) (target : ℕ) (theta : ℝ) :
    StateVector × Option String :=
  applySingleQubitMatrix state target (matRZ theta)

/-- Loop body of `applyCNOT`: for `i` with the control bit set and the
target bit clear, swap slots `i` and `j = i | targetMask` (temporary
read of slot `i`, then write `i`, then write `j`). -/
def cnotBody (controlMask targetMask : ℕ) (f : ℕ → ℂ) (i : ℕ) : ℕ → ℂ :=
  if i &&& controlMask = 0 then f
  else if i &&& targetMask ≠ 0 then f
  else
    let j := i ||| targetMask
    writeAt (writeAt f i (f j)) j (f i)

/-- `applyCNOT(state, control, target)`. -/
def applyCNOT (state : StateVector) (control target : ℕ) : StateVector × Option String :=
  if ¬ control < state.nQubits then (state, some "Invalid control index")
  else if ¬ target < state.nQubits then (state, some "Invalid target index")
  else if control = target then (state, some "CNOT control and target must be different.")
  else
    let controlMask := maskForQubit state.nQubits control
    let targetMask := maskForQubit state.nQubits target
    (⟨state.nQubits,
      (List.range (2 ^ state.nQubits)).foldl (cnotBody controlMask targetMask) state.amp⟩,
     none)

/-- Loop body of `applyCZ`: negate amplitudes with both bits set. -/
def czBody (controlMask targetMask : ℕ) (f : ℕ → ℂ) (i : ℕ) : ℕ → ℂ :=
  if i &&& controlMask = 0 then f
  else if i &&& targetMask = 0 then f
  else writeAt f i (-f i)

/-- `applyCZ(state, control, target)`. -/
def applyCZ (state : StateVector) (control target : ℕ) : StateVector × Option String :=
  if ¬ control < state.nQubits then (state, some "Invalid control index")
  else if ¬ target < state.nQubits then (state, some "Invalid target index")
  else if control = target then (state, some "CZ control and target must be different.")
  else
    let controlMask := maskForQubit state.nQubits control
    let targetMask := maskForQubit state.nQubits target
    (⟨state.nQubits,
      (List.range (2 ^ state.nQubits)).foldl (czBody controlMask targetMask) state.amp⟩,
     none)

/-- Loop body of `applySWAP`: for `i` whose `a`/`b` bits differ, pair it
with `j = i ^ maskA ^ maskB`, process only when `i < j`, and swap. -/
def swapBody (maskA maskB : ℕ) (f : ℕ → ℂ) (i : ℕ) : ℕ → ℂ :=
  if (decide (i &&& maskA ≠ 0) = decide (i &&& maskB ≠ 0)) then f
  else
    let j := i ^^^ maskA ^^^ maskB
    if j < i then f
    else writeAt (writeAt f i (f j)) j (f i)

/-- `applySWAP(state, a, b)`: identity when `a == b` (after index checks). -/
def applySWAP (state : StateVector) (a b : ℕ) : StateVector × Option String :=
  if ¬ a < state.nQubits then (state, some "Invalid a index")
  else if ¬ b < state.nQubits then (state, some "Invalid b index")
  else if a = b then (state, none)
  else
    let maskA := maskForQubit state.nQubits a
    let maskB := maskForQubit state.nQubits b
    (⟨state.nQubits,
      (List.range (2 ^ state.nQubits)).foldl (swapBody maskA maskB) state.amp⟩,
     none)

/-- The qubits touched by an operation (the source returns a *list*:
`CNOT`/`CZ` give `[control, target]`, `SWAP` gives `[a, b]`). -/
def touchedQubits : GateOp → List ℕ
  | GateOp.H t => [t]
  | GateOp.X t => [t]
  | GateOp.Y t => [t]
  | GateOp.Z t => [t]
  | GateOp.S t => [t]
  | GateOp.T t => [t]
  | GateOp.RX t _ => [t]
  | GateOp.RY t _ => [t]
  | GateOp.RZ t _ => [t]
  | GateOp.CNOT c t => [c, t]
  | GateOp.CZ c t => [c, t]
  | GateOp.SWAP a b => [a, b]
  | GateOp.MEASURE t => [t]

/-- Marking the qubits of one op in the `touched` array: out-of-range
fails first, then a doubly-touched qubit fails the step. -/
def markQubits (nQubits : ℕ) : List ℕ → (ℕ → Bool) → Except String (ℕ → Bool)
  | [], touched => Except.ok touched
  | q :: qs, touched =>
      if ¬ q < nQubits then Except.error "Invalid qubit index"
      else if touched q then Except.error "Invalid step: multiple ops touch a qubit."
      else markQubits nQubits qs (fun x => if x = q then true else touched x)

/-- Folding `markQubits` over the ops of a step. -/
def markStep (nQubits : ℕ) : List GateOp → (ℕ → Bool) → Except String (ℕ → Bool)
  | [], touched => Except.ok touched
  | op :: ops, touched =>
      match markQubits nQubits (touchedQubits op) touched with
      | Except.error e => Except.error e
      | Except.ok touched2 => markStep nQubits ops touched2

/-- `validateStep(nQubits, step)`. -/
def validateStep (nQubits : ℕ) (step : List GateOp) : Except String Unit :=
  match markStep nQubits step (fun _ => false) with
  | Except.error e => Except.error e
  | Except.ok _ => Except.ok ()

/-- Converting a mutating kernel's result to the executor's view: a
thrown error propagates, otherwise the new state is returned. -/
def kernelResult : StateVector × Option String → Except String StateVector
  | (_, some e) => Except.error e
  | (s, none) => Except.ok s

/-- `applyOp(state, op)`: dispatch on the gate kind (`MEASURE` is a no-op). -/
noncomputable def applyOp (state : StateVector) : GateOp → Except String StateVector
  | GateOp.H t => kernelResult (applyH state t)
  | GateOp.X t => kernelResult (applyX state t)
  | GateOp.Y t => kernelResult (applyY state t)
  | GateOp.Z t => kernelResult (applyZ state t)
  | GateOp.S t => kernelResult (applyS state t)
  | GateOp.T t => kernelResult (applyT state t)
  | GateOp.RX t th => kernelResult (applyRX state t th)
  | GateOp.RY t th => kernelResult (applyRY state t th)
  | GateOp.RZ t th => kernelResult (applyRZ state t th)
  | GateOp.CNOT c t => kernelResult (applyCNOT state c t)
  | GateOp.CZ c t => kernelResult (applyCZ state c t)
  | GateOp.SWAP a b => kernelResult (applySWAP state a b)
  | GateOp.MEASURE _ => Except.ok state

/-- Applying the ops of one step in order. -/
noncomputable def applyOps (state : StateVector) : List GateOp → Except String StateVector
  | [] => Except.ok state
  | op :: ops =>
      match applyOp state op with
      | Except.error e => Except.error e
      | Except.ok s2 => applyOps s2 ops

/-- Executing the steps in order: validate each step, then apply its ops. -/
noncomputable def runSteps (nQubits : ℕ) (state : StateVector) :
    List (List GateOp) → Except String StateVector
  | [] => Except.ok state
  | step :: rest =>
      match validateStep nQubits step with
      | Except.error e => Except.error e
      | Except.ok _ =>
          match applyOps state step with
          | Except.error e => Except.error e
          | Except.ok s2 => runSteps nQubits s2 rest

/-- `simulateCircuit(circuit)`: validate the qubit count (an integer in
`[1, 20]`; non-integers are outside the `ℕ` model), start from
`zeroState`, and run the steps. -/
noncomputable def simulateCircuit (circuit : Circuit) : Except String StateVector :=
  if circuit.nQubits = 0 then Except.error "Invalid qubit count"
  else if 20 < circuit.nQubits then
    Except.error "Statevector simulation limited to <= 20 qubits"
  else runSteps circuit.nQubits (zeroState circuit.nQubits) circuit.steps

/-- The Bloch accumulation loop over pairs `(i, j = i | mask)` with the
target bit clear: `(ρ00, ρ11, Re ρ01, Im ρ01)`, accumulated with the
source's componentwise formulas. -/
def blochAccum (mask : ℕ) (amp : ℕ → ℂ) (size : ℕ) : ℝ × ℝ × ℝ × ℝ :=
  (List.range size).foldl
    (fun acc i =>
      if i &&& mask ≠ 0 then acc
      else
        let a := amp i
        let b := amp (i ||| mask)
        (acc.1 + (a.re * a.re + a.im * a.im),
         acc.2.1 + (b.re * b.re + b.im * b.im),
         acc.2.2.1 + (a.re * b.re + a.im * b.im),
         acc.2.2.2 + (a.im * b.re - a.re * b.im)))
    (0, 0, 0, 0)

/-- `blochVector(state, qubit)`: `(x, y, z) = (2 Re ρ01, −2 Im ρ01, ρ00 − ρ11)`. -/
noncomputable def blochVector (state : StateVector) (qubit : ℕ) : Except String BlochVector :=
  if ¬ qubit < state.nQubits then Except.error "Invalid qubit index"
  else
    let acc := blochAccum (maskForQubit state.nQubits qubit) state.amp (2 ^ state.nQubits)
    Except.ok ⟨2 * acc.2.2.1, -2 * acc.2.2.2, acc.1 - acc.2.1⟩

/-- `probabilities(state)` as a function on basis indices. -/
def probabilities (state : StateVector) : ℕ → ℝ :=
  fun i => (state.amp i).re * (state.amp i).re + (state.amp i).im * (state.amp i).im

/-- The squared norm of a state: `Σ_k re[k]^2 + im[k]^2` over the buffer. -/
noncomputable def stateNorm (s : StateVector) : ℝ :=
  ∑ k ∈ Finset.range (2 ^ s.nQubits), ((s.amp k).re ^ 2 + (s.amp k).im ^ 2)

/-! ## Bit-arithmetic helpers for the pair loops -/

/-- `i & 2^b = 0` exactly when bit `b` of `i` is clear. -/
theorem and_two_pow_eq_zero_iff (i b : ℕ) : i &&& 2 ^ b = 0 ↔ i.testBit b = false := by
  rw [Nat.and_two_pow]
  rcases h : i.testBit b with _ | _
  · simp
  · simp only [Bool.toNat_true, one_mul, pow_eq_zero_iff]
    constructor
    · intro hz
      exact absurd hz (by positivity)
    · intro hz
      exact absurd hz (by simp)

/-- On indices with the bit clear, `| mask` and `^ mask` agree. -/
theorem or_eq_xor_of_and_eq_zero {i m : ℕ} (h : i &&& m = 0) : i ||| m = i ^^^ m := by
  refine Nat.eq_of_testBit_eq fun j => ?_
  have hj : (i &&& m).testBit j = false := by rw [h, Nat.zero_testBit]
  rw [Nat.testBit_and] at hj
  rw [Nat.testBit_or, Nat.testBit_xor]
  rcases h1 : i.testBit j <;> rcases h2 : m.testBit j <;> simp_all

/-- Xor with a mask below `2^n` keeps indices below `2^n`. -/
theorem xor_lt_two_pow {a b n : ℕ} (ha : a < 2 ^ n) (hb : b < 2 ^ n) : a ^^^ b < 2 ^ n :=
  Nat.bitwise_lt ha hb

/-- Bit `b` of `i ^ 2^b` is the flipped bit `b` of `i`. -/
theorem testBit_xor_two_pow (i b : ℕ) : (i ^^^ 2 ^ b).testBit b = ! i.testBit b := by
  rw [Nat.testBit_xor, Nat.testBit_two_pow_self, Bool.xor_true]

/-- Congruence for the two-branch conditional shape used by the loop
characterizations. -/
theorem ifp_congr {c1 c1' c2 c2' : Prop}
    [Decidable c1] [Decidable c1'] [Decidable c2] [Decidable c2']
    (h1 : c1 ↔ c1') (h2 : c2 ↔ c2') (x y z : ℂ) :
    (if c1 then x else if c2 then y else z) = if c1' then x else if c2' then y else z :=
  if_congr h1 rfl (if_congr h2 rfl rfl)

/-! ## The generic pair-update loop

`applySingleQubitMatrix`, `applyCNOT` and `applySWAP` all traverse
`range (2^n)` and, at each index `i` selected by a predicate `p`, read
the pair `(i, q i)` and overwrite both slots with functions of the two
old values (`q` an involution pairing each selected index with an
unselected one).  The characterization below is proved once. -/

theorem pair_foldl_char
    (body : (ℕ → ℂ) → ℕ → ℕ → ℂ) (p : ℕ → Bool) (q : ℕ → ℕ)
    (g0 g1 : ℂ → ℂ → ℂ)
    (hq : ∀ k, q (q k) = k)
    (hne : ∀ i, p i = true → q i ≠ i)
    (hp2 : ∀ i, p i = true → p (q i) = false)
    (hbody : ∀ f i, body f i =
      if p i then writeAt (writeAt f i (g0 (f i) (f (q i)))) (q i) (g1 (f i) (f (q i))) else f)
    (S : ℕ → ℂ) :
    ∀ size k, (List.range size).foldl body S k =
      if p k = true ∧ k < size then g0 (S k) (S (q k))
      else if p (q k) = true ∧ q k < size then g1 (S (q k)) (S k)
      else S k := by
  intro size
  induction size with
  | zero =>
      intro k
      simp
  | succ t ih =>
      intro k
      rw [List.range_succ, List.foldl_append, List.foldl_cons, List.foldl_nil, hbody]
      rcases hp : p t with _ | _
      · -- index t is skipped: only the bounds in the invariant move
        simp only [Bool.false_eq_true, if_false]
        rw [ih k]
        apply ifp_congr
        · constructor
          · rintro ⟨a, b⟩
            exact ⟨a, Nat.lt_succ_of_lt b⟩
          · rintro ⟨a, b⟩
            refine ⟨a, ?_⟩
            rcases Nat.lt_succ_iff_lt_or_eq.mp b with h | h
            · exact h
            · exact absurd (h ▸ a) (by simp [hp])
        · constructor
          · rintro ⟨a, b⟩
            exact ⟨a, Nat.lt_succ_of_lt b⟩
          · rintro ⟨a, b⟩
            refine ⟨a, ?_⟩
            rcases Nat.lt_succ_iff_lt_or_eq.mp b with h | h
            · exact h
            · exact absurd (h ▸ a) (by simp [hp])
      · -- index t is selected: the pair (t, q t) is rewritten
        have hj : q t ≠ t := hne t hp
        have hpj : p (q t) = false := hp2 t hp
        have hFt : (List.range t).foldl body S t = S t := by
          rw [ih t]
          rw [if_neg (fun h => absurd h.2 (lt_irrefl t)), if_neg]
          intro h
          exact absurd h.1 (by simp [hpj])
        have hFj : (List.range t).foldl body S (q t) = S (q t) := by
          rw [ih (q t)]
          rw [if_neg, if_neg]
          · intro h
            rw [hq t] at h
            exact absurd h.2 (lt_irrefl t)
          · intro h
            exact absurd h.1 (by simp [hpj])
        simp only [if_true]
        rw [hFt, hFj]
        unfold writeAt
        by_cases hkj : k = q t
        · rw [if_pos hkj, hkj]
          rw [if_neg, if_pos ⟨by rw [hq t]; exact hp, by rw [hq t]; exact Nat.lt_succ_self t⟩]
          · rw [hq t]
          · intro h
            exact absurd h.1 (by simp [hpj])
        · rw [if_neg hkj]
          by_cases hkt : k = t
          · rw [if_pos hkt, hkt]
            rw [if_pos ⟨hp, Nat.lt_succ_self t⟩]
          · rw [if_neg hkt]
            rw [ih k]
            apply ifp_congr
            · constructor
              · rintro ⟨a, b⟩
                exact ⟨a, Nat.lt_succ_of_lt b⟩
              · rintro ⟨a, b⟩
                refine ⟨a, ?_⟩
                rcases Nat.lt_succ_iff_lt_or_eq.mp b with h | h
                · exact h
                · exact absurd h hkt
            · constructor
              · rintro ⟨a, b⟩
                exact ⟨a, Nat.lt_succ_of_lt b⟩
              · rintro ⟨a, b⟩
                refine ⟨a, ?_⟩
                rcases Nat.lt_succ_iff_lt_or_eq.mp b with h | h
                · exact h
                · exact absurd (by rw [← h, hq k]) hkj

/-- Summing any pair-compatible quantity `F` over the buffer is invariant
under a pair-update pass whose writes preserve `F` pairwise. -/
theorem pair_sum_invariant
    (p : ℕ → Bool) (q : ℕ → ℕ) (g0 g1 : ℂ → ℂ → ℂ) (S : ℕ → ℂ) (size : ℕ)
    (F : ℂ → ℝ)
    (hq : ∀ k, q (q k) = k)
    (hp2 : ∀ i, p i = true → p (q i) = false)
    (hsize : ∀ i, i < size → p i = true → q i < size)
    (hF : ∀ a b, F (g0 a b) + F (g1 a b) = F a + F b) :
    ∑ k ∈ Finset.range size,
        F (if p k = true ∧ k < size then g0 (S k) (S (q k))
           else if p (q k) = true ∧ q k < size then g1 (S (q k)) (S k)
           else S k)
      = ∑ k ∈ Finset.range size, F (S k) := by
  classical
  set A : Finset ℕ := (Finset.range size).filter (fun k => p k = true) with hA
  set B : Finset ℕ :=
    (Finset.range size).filter (fun k => ¬ p k = true ∧ (p (q k) = true ∧ q k < size)) with hB
  set C : Finset ℕ :=
    (Finset.range size).filter (fun k => ¬ p k = true ∧ ¬ (p (q k) = true ∧ q k < size)) with hC
  have memA : ∀ k ∈ A, k < size ∧ p k = true := by
    intro k hk
    rw [hA, Finset.mem_filter, Finset.mem_range] at hk
    exact hk
  have memB : ∀ k ∈ B, k < size ∧ ¬ p k = true ∧ p (q k) = true ∧ q k < size := by
    intro k hk
    rw [hB, Finset.mem_filter, Finset.mem_range] at hk
    exact ⟨hk.1, hk.2.1, hk.2.2⟩
  have memC : ∀ k ∈ C, k < size ∧ ¬ p k = true ∧ ¬ (p (q k) = true ∧ q k < size) := by
    intro k hk
    rw [hC, Finset.mem_filter, Finset.mem_range] at hk
    exact ⟨hk.1, hk.2.1, hk.2.2⟩
  have hsplit : ∀ G : ℕ → ℝ,
      ∑ k ∈ Finset.range size, G k = ∑ k ∈ A, G k + (∑ k ∈ B, G k + ∑ k ∈ C, G k) := by
    intro G
    rw [hA, hB, hC]
    rw [← Finset.sum_filter_add_sum_filter_not (Finset.range size) (fun k => p k = true) G]
    congr 1
    rw [← Finset.sum_filter_add_sum_filter_not
      ((Finset.range size).filter (fun k => ¬ p k = true))
      (fun k => p (q k) = true ∧ q k < size) G]
    rw [Finset.filter_filter, Finset.filter_filter]
  have hAtoB : ∀ a ∈ A, q a ∈ B := by
    intro a ha
    obtain ⟨halt, hap⟩ := memA a ha
    rw [hB, Finset.mem_filter, Finset.mem_range]
    refine ⟨hsize a halt hap, ?_, ?_, ?_⟩
    · simp [hp2 a hap]
    · rw [hq a]
      exact hap
    · rw [hq a]
      exact halt
  have hBtoA : ∀ b ∈ B, q b ∈ A := by
    intro b hb
    obtain ⟨hblt, _, hbq, hbqlt⟩ := memB b hb
    rw [hA, Finset.mem_filter, Finset.mem_range]
    exact ⟨hbqlt, hbq⟩
  rw [hsplit]
  conv_rhs => rw [hsplit]
  have eA : ∀ k ∈ A,
      F (if p k = true ∧ k < size then g0 (S k) (S (q k))
         else if p (q k) = true ∧ q k < size then g1 (S (q k)) (S k) else S k)
        = F (g0 (S k) (S (q k))) := by
    intro k hk
    obtain ⟨hlt, hp'⟩ := memA k hk
    rw [if_pos ⟨hp', hlt⟩]
  have eB : ∀ k ∈ B,
      F (if p k = true ∧ k < size then g0 (S k) (S (q k))
         else if p (q k) = true ∧ q k < size then g1 (S (q k)) (S k) else S k)
        = F (g1 (S (q k)) (S k)) := by
    intro k hk
    obtain ⟨hlt, hnp, hqp, hqlt⟩ := memB k hk
    rw [if_neg (fun h => hnp h.1), if_pos ⟨hqp, hqlt⟩]
  have eC : ∀ k ∈ C,
      F (if p k = true ∧ k < size then g0 (S k) (S (q k))
         else if p (q k) = true ∧ q k < size then g1 (S (q k)) (S k) else S k)
        = F (S k) := by
    intro k hk
    obtain ⟨hlt, hnp, hn2⟩ := memC k hk
    rw [if_neg (fun h => hnp h.1), if_neg hn2]
  rw [Finset.sum_congr rfl eA, Finset.sum_congr rfl eB, Finset.sum_congr rfl eC]
  have hBsum : ∑ k ∈ B, F (g1 (S (q k)) (S k)) = ∑ a ∈ A, F (g1 (S a) (S (q a))) := by
    refine Finset.sum_nbij' q q hBtoA hAtoB (fun a _ => hq a) (fun a _ => hq a) ?_
    intro b hb
    rw [hq b]
  have hBS : ∑ a ∈ A, F (S (q a)) = ∑ k ∈ B, F (S k) := by
    refine Finset.sum_nbij' q q hAtoB hBtoA (fun a _ => hq a) (fun a _ => hq a) ?_
    intro a _
    rfl
  rw [hBsum, ← add_assoc, ← Finset.sum_add_distrib]
  have : ∑ a ∈ A, (F (g0 (S a) (S (q a))) + F (g1 (S a) (S (q a))))
      = ∑ a ∈ A, (F (S a) + F (S (q a))) :=
    Finset.sum_congr rfl (fun a _ => hF (S a) (S (q a)))
  rw [this, Finset.sum_add_distrib, hBS]
  ring

/-- The pairing across bit `b` is an involution. -/
theorem xorMask_involution (b : ℕ) : ∀ k, (k ^^^ 2 ^ b) ^^^ 2 ^ b = k :=
  fun k => Nat.xor_cancel_right (2 ^ b) k

/-- A selected index (bit `b` clear) differs from its partner. -/
theorem xorMask_ne (b : ℕ) : ∀ i, decide (i &&& 2 ^ b = 0) = true → i ^^^ 2 ^ b ≠ i := by
  intro i _ hcontra
  have h1 : (i ^^^ 2 ^ b).testBit b = ! i.testBit b := testBit_xor_two_pow i b
  rw [hcontra] at h1
  rcases h : i.testBit b <;> simp [h] at h1

/-- The partner of a selected index is not selected. -/
theorem xorMask_partner_not_selected (b : ℕ) :
    ∀ i, decide (i &&& 2 ^ b = 0) = true → decide ((i ^^^ 2 ^ b) &&& 2 ^ b = 0) = false := by
  intro i hi
  have h0 : i &&& 2 ^ b = 0 := of_decide_eq_true hi
  have h1 : i.testBit b = false := (and_two_pow_eq_zero_iff i b).mp h0
  have h2 : (i ^^^ 2 ^ b).testBit b = true := by
    rw [testBit_xor_two_pow, h1]
    rfl
  rw [decide_eq_false_iff_not]
  intro hcontra
  rw [(and_two_pow_eq_zero_iff _ b).mp hcontra] at h2
  exact absurd h2 (by simp)

/-- Partners stay inside the `2^n`-sized buffer when `b < n`. -/
theorem xorMask_partner_lt (b n : ℕ) (hb : b < n) :
    ∀ i, i < 2 ^ n → decide (i &&& 2 ^ b = 0) = true → i ^^^ 2 ^ b < 2 ^ n := by
  intro i hi _
  exact xor_lt_two_pow hi (Nat.pow_lt_pow_right (by omega) hb)

/-- The single-qubit loop body in generic pair-update form. -/
theorem singleQubitBody_eq (m : ComplexMatrix2) (b : ℕ) :
    ∀ f i, singleQubitBody m (2 ^ b) f i =
      if decide (i &&& 2 ^ b = 0) then
        writeAt (writeAt f i (m.m00 * f i + m.m01 * f (i ^^^ 2 ^ b))) (i ^^^ 2 ^ b)
          (m.m10 * f i + m.m11 * f (i ^^^ 2 ^ b))
      else f := by
  intro f i
  unfold singleQubitBody
  by_cases h : i &&& 2 ^ b = 0
  · rw [if_neg (fun hc => hc h), if_pos (decide_eq_true h)]
    rw [or_eq_xor_of_and_eq_zero h]
  · rw [if_pos h, if_neg (by simpa using h)]

/-- The single-qubit pair loop, characterized: every index below the
buffer size is combined with its partner across bit `b` using the old
values; indices outside the buffer are untouched. -/
theorem singleQubit_foldl_eq (m : ComplexMatrix2) (b n : ℕ) (hb : b < n) (S : ℕ → ℂ) (k : ℕ) :
    (List.range (2 ^ n)).foldl (singleQubitBody m (2 ^ b)) S k =
      if k < 2 ^ n then
        (if k &&& 2 ^ b = 0 then m.m00 * S k + m.m01 * S (k ||| 2 ^ b)
         else m.m10 * S (k ^^^ 2 ^ b) + m.m11 * S k)
      else S k := by
  have hchar := pair_foldl_char (singleQubitBody m (2 ^ b))
    (fun i => decide (i &&& 2 ^ b = 0)) (fun i => i ^^^ 2 ^ b)
    (fun a c => m.m00 * a + m.m01 * c) (fun a c => m.m10 * a + m.m11 * c)
    (xorMask_involution b) (xorMask_ne b) (xorMask_partner_not_selected b)
    (singleQubitBody_eq m b) S (2 ^ n) k
  rw [hchar]
  have hmask : (2 : ℕ) ^ b < 2 ^ n := Nat.pow_lt_pow_right (by omega) hb
  by_cases hk : k < 2 ^ n
  · rw [if_pos hk]
    by_cases h0 : k &&& 2 ^ b = 0
    · rw [if_pos ⟨decide_eq_true h0, hk⟩, if_pos h0, or_eq_xor_of_and_eq_zero h0]
    · rw [if_neg (fun h => absurd (of_decide_eq_true h.1) h0), if_neg h0, if_pos]
      have h1 : k.testBit b = true := by
        rcases h : k.testBit b with _ | _
        · exact absurd ((and_two_pow_eq_zero_iff k b).mpr h) h0
        · rfl
      constructor
      · apply decide_eq_true
        apply (and_two_pow_eq_zero_iff _ b).mpr
        rw [testBit_xor_two_pow, h1]
        rfl
      · exact xor_lt_two_pow hk hmask
  · rw [if_neg hk, if_neg (fun h => hk h.2), if_neg]
    intro h
    have : k < 2 ^ n := by
      have := xor_lt_two_pow h.2 hmask
      rwa [Nat.xor_cancel_right] at this
    exact hk this

/-- The amplitude-magnitude summand used by the norm invariant. -/
def ampSq (z : ℂ) : ℝ := z.re ^ 2 + z.im ^ 2

/-- Column-orthonormality of a 2×2 matrix, written on components: each
column has unit norm and the two columns are orthogonal (these are the
conditions making `‖M v‖ = ‖v‖`). -/
def UnitaryCols (m : ComplexMatrix2) : Prop :=
  (m.m00.re * m.m00.re + m.m00.im * m.m00.im
    + (m.m10.re * m.m10.re + m.m10.im * m.m10.im) = 1) ∧
  (m.m01.re * m.m01.re + m.m01.im * m.m01.im
    + (m.m11.re * m.m11.re + m.m11.im * m.m11.im) = 1) ∧
  (m.m00.re * m.m01.re + m.m00.im * m.m01.im
    + (m.m10.re * m.m11.re + m.m10.im * m.m11.im) = 0) ∧
  (m.m00.im * m.m01.re - m.m00.re * m.m01.im
    + (m.m10.im * m.m11.re - m.m10.re * m.m11.im) = 0)

/-- A column-orthonormal matrix preserves `|·|²` summed over a pair. -/
theorem unitary_pair_ampSq (m : ComplexMatrix2) (hU : UnitaryCols m) (a c : ℂ) :
    ampSq (m.m00 * a + m.m01 * c) + ampSq (m.m10 * a + m.m11 * c) = ampSq a + ampSq c := by
  obtain ⟨h1, h2, h3, h4⟩ := hU
  unfold ampSq
  simp only [Complex.add_re, Complex.add_im, Complex.mul_re, Complex.mul_im]
  linear_combination (a.re ^ 2 + a.im ^ 2) * h1 + (c.re ^ 2 + c.im ^ 2) * h2
    + 2 * (a.re * c.re + a.im * c.im) * h3 + 2 * (a.re * c.im - a.im * c.re) * h4

/-- The single-qubit pair loop leaves the summed `|·|²` unchanged for a
column-orthonormal matrix. -/
theorem singleQubit_foldl_norm (m : ComplexMatrix2) (hU : UnitaryCols m)
    (b n : ℕ) (hb : b < n) (S : ℕ → ℂ) :
    ∑ k ∈ Finset.range (2 ^ n),
        ampSq ((List.range (2 ^ n)).foldl (singleQubitBody m (2 ^ b)) S k)
      = ∑ k ∈ Finset.range (2 ^ n), ampSq (S k) := by
  have hcongr : ∀ k ∈ Finset.range (2 ^ n),
      ampSq ((List.range (2 ^ n)).foldl (singleQubitBody m (2 ^ b)) S k)
        = ampSq (if decide (k &&& 2 ^ b = 0) = true ∧ k < 2 ^ n then
              m.m00 * S k + m.m01 * S (k ^^^ 2 ^ b)
            else if decide ((k ^^^ 2 ^ b) &&& 2 ^ b = 0) = true ∧ k ^^^ 2 ^ b < 2 ^ n then
              m.m10 * S (k ^^^ 2 ^ b) + m.m11 * S k
            else S k) := by
    intro k _
    rw [pair_foldl_char (singleQubitBody m (2 ^ b))
      (fun i => decide (i &&& 2 ^ b = 0)) (fun i => i ^^^ 2 ^ b)
      (fun a c => m.m00 * a + m.m01 * c) (fun a c => m.m10 * a + m.m11 * c)
      (xorMask_involution b) (xorMask_ne b) (xorMask_partner_not_selected b)
      (singleQubitBody_eq m b) S (2 ^ n) k]
  rw [Finset.sum_congr rfl hcongr]
  exact pair_sum_invariant
    (fun i => decide (i &&& 2 ^ b = 0)) (fun i => i ^^^ 2 ^ b)
    (fun a c => m.m00 * a + m.m01 * c) (fun a c => m.m10 * a + m.m11 * c)
    S (2 ^ n) ampSq
    (xorMask_involution b) (xorMask_partner_not_selected b)
    (xorMask_partner_lt b n hb) (unitary_pair_ampSq m hU)

/-- The CNOT loop body in generic pair-update form (selected: control bit
set, target bit clear; partner across the target bit; pure swap). -/
theorem cnotBody_eq (bc bt : ℕ) :
    ∀ f i, cnotBody (2 ^ bc) (2 ^ bt) f i =
      if decide (i &&& 2 ^ bc ≠ 0 ∧ i &&& 2 ^ bt = 0) then
        writeAt (writeAt f i (f (i ^^^ 2 ^ bt))) (i ^^^ 2 ^ bt) (f i)
      else f := by
  intro f i
  unfold cnotBody
  by_cases h1 : i &&& 2 ^ bc = 0
  · rw [if_pos h1, if_neg]
    simp [h1]
  · rw [if_neg h1]
    by_cases h2 : i &&& 2 ^ bt = 0
    · rw [if_neg (fun hc => hc h2), if_pos (by simp [h1, h2])]
      rw [or_eq_xor_of_and_eq_zero h2]
    · rw [if_pos h2, if_neg (by simp [h2])]

/-- The CNOT pass preserves the summed `|·|²`. -/
theorem cnot_foldl_norm (bc bt n : ℕ) (hbt : bt < n) (S : ℕ → ℂ) :
    ∑ k ∈ Finset.range (2 ^ n),
        ampSq ((List.range (2 ^ n)).foldl (cnotBody (2 ^ bc) (2 ^ bt)) S k)
      = ∑ k ∈ Finset.range (2 ^ n), ampSq (S k) := by
  have hp2 : ∀ i, decide (i &&& 2 ^ bc ≠ 0 ∧ i &&& 2 ^ bt = 0) = true →
      decide ((i ^^^ 2 ^ bt) &&& 2 ^ bc ≠ 0 ∧ (i ^^^ 2 ^ bt) &&& 2 ^ bt = 0) = false := by
    intro i hi
    obtain ⟨_, h2⟩ := of_decide_eq_true hi
    rw [decide_eq_false_iff_not]
    intro hcontra
    have := xorMask_partner_not_selected bt i (decide_eq_true h2)
    rw [decide_eq_false_iff_not] at this
    exact this hcontra.2
  have hne : ∀ i, decide (i &&& 2 ^ bc ≠ 0 ∧ i &&& 2 ^ bt = 0) = true → i ^^^ 2 ^ bt ≠ i := by
    intro i hi
    obtain ⟨_, h2⟩ := of_decide_eq_true hi
    exact xorMask_ne bt i (decide_eq_true h2)
  have hcongr : ∀ k ∈ Finset.range (2 ^ n),
      ampSq ((List.range (2 ^ n)).foldl (cnotBody (2 ^ bc) (2 ^ bt)) S k)
        = ampSq (if decide (k &&& 2 ^ bc ≠ 0 ∧ k &&& 2 ^ bt = 0) = true ∧ k < 2 ^ n then
              S (k ^^^ 2 ^ bt)
            else if decide ((k ^^^ 2 ^ bt) &&& 2 ^ bc ≠ 0 ∧ (k ^^^ 2 ^ bt) &&& 2 ^ bt = 0) = true
                ∧ k ^^^ 2 ^ bt < 2 ^ n then
              S (k ^^^ 2 ^ bt)
            else S k) := by
    intro k _
    rw [pair_foldl_char (cnotBody (2 ^ bc) (2 ^ bt))
      (fun i => decide (i &&& 2 ^ bc ≠ 0 ∧ i &&& 2 ^ bt = 0)) (fun i => i ^^^ 2 ^ bt)
      (fun _ c => c) (fun a _ => a)
      (xorMask_involution bt) hne hp2 (cnotBody_eq bc bt) S (2 ^ n) k]
  rw [Finset.sum_congr rfl hcongr]
  exact pair_sum_invariant
    (fun i => decide (i &&& 2 ^ bc ≠ 0 ∧ i &&& 2 ^ bt = 0)) (fun i => i ^^^ 2 ^ bt)
    (fun _ c => c) (fun a _ => a) S (2 ^ n) ampSq
    (xorMask_involution bt) hp2
    (fun i hi hp => xorMask_partner_lt bt n hbt i hi
      (decide_eq_true (of_decide_eq_true hp).2))
    (fun a c => add_comm (ampSq c) (ampSq a))

/-- The SWAP loop body in generic pair-update form (selected: the two
bits differ and the partner is the larger of the pair; pure swap). -/
theorem swapBody_eq (ma mb : ℕ) :
    ∀ f i, swapBody ma mb f i =
      if decide (¬ (decide (i &&& ma ≠ 0) = decide (i &&& mb ≠ 0))
          ∧ ¬ (i ^^^ ma ^^^ mb < i)) then
        writeAt (writeAt f i (f (i ^^^ ma ^^^ mb))) (i ^^^ ma ^^^ mb) (f i)
      else f := by
  intro f i
  unfold swapBody
  by_cases h1 : decide (i &&& ma ≠ 0) = decide (i &&& mb ≠ 0)
  · rw [if_pos h1, if_neg (by simp [h1])]
  · rw [if_neg h1]
    by_cases h2 : i ^^^ ma ^^^ mb < i
    · rw [if_pos h2, if_neg (by simp [h1, h2])]
    · rw [if_neg h2, if_pos (decide_eq_true ⟨h1, h2⟩)]

/-- The pairing `i ↦ i ^ maskA ^ maskB` is an involution. -/
theorem swap_involution (ma mb : ℕ) : ∀ k, (k ^^^ ma ^^^ mb) ^^^ ma ^^^ mb = k := by
  intro k
  rw [Nat.xor_assoc k ma mb, Nat.xor_assoc (k ^^^ (ma ^^^ mb)) ma mb,
    Nat.xor_cancel_right]

/-- A selected SWAP index differs from its partner. -/
theorem swap_ne (ma mb : ℕ) :
    ∀ i, decide (¬ (decide (i &&& ma ≠ 0) = decide (i &&& mb ≠ 0))
        ∧ ¬ (i ^^^ ma ^^^ mb < i)) = true → i ^^^ ma ^^^ mb ≠ i := by
  intro i hi hcontra
  obtain ⟨h1, _⟩ := of_decide_eq_true hi
  have hxi : i ^^^ (ma ^^^ mb) = i := by
    rw [← Nat.xor_assoc]
    exact hcontra
  have h3 : ma ^^^ mb = 0 := by
    calc ma ^^^ mb = i ^^^ (i ^^^ (ma ^^^ mb)) := by
          rw [← Nat.xor_assoc, Nat.xor_self, Nat.zero_xor]
    _ = i ^^^ i := by rw [hxi]
    _ = 0 := Nat.xor_self i
  have hmm : ma = mb := by
    calc ma = (ma ^^^ mb) ^^^ mb := (Nat.xor_cancel_right mb ma).symm
    _ = 0 ^^^ mb := by rw [h3]
    _ = mb := Nat.zero_xor mb
  rw [hmm] at h1
  exact h1 rfl

/-- The partner of a selected SWAP index is not selected (it is the
larger element of its pair). -/
theorem swap_partner_not_selected (ma mb : ℕ) :
    ∀ i, decide (¬ (decide (i &&& ma ≠ 0) = decide (i &&& mb ≠ 0))
        ∧ ¬ (i ^^^ ma ^^^ mb < i)) = true →
      decide (¬ (decide ((i ^^^ ma ^^^ mb) &&& ma ≠ 0) = decide ((i ^^^ ma ^^^ mb) &&& mb ≠ 0))
        ∧ ¬ ((i ^^^ ma ^^^ mb) ^^^ ma ^^^ mb < i ^^^ ma ^^^ mb)) = false := by
  intro i hi
  obtain ⟨h1, h2⟩ := of_decide_eq_true hi
  have hne : i ^^^ ma ^^^ mb ≠ i := swap_ne ma mb i hi
  have hlt : i < i ^^^ ma ^^^ mb := by omega
  rw [decide_eq_false_iff_not]
  intro hcontra
  rw [swap_involution ma mb i] at hcontra
  exact hcontra.2 hlt

/-- SWAP partners stay inside the buffer when both masks do. -/
theorem swap_partner_lt (ma mb n : ℕ) (hma : ma < 2 ^ n) (hmb : mb < 2 ^ n) :
    ∀ i, i < 2 ^ n →
      decide (¬ (decide (i &&& ma ≠ 0) = decide (i &&& mb ≠ 0))
        ∧ ¬ (i ^^^ ma ^^^ mb < i)) = true → i ^^^ ma ^^^ mb < 2 ^ n := by
  intro i hi _
  exact xor_lt_two_pow (xor_lt_two_pow hi hma) hmb

/-- The SWAP pass preserves the summed `|·|²`. -/
theorem swap_foldl_norm (ma mb n : ℕ) (hma : ma < 2 ^ n) (hmb : mb < 2 ^ n) (S : ℕ → ℂ) :
    ∑ k ∈ Finset.range (2 ^ n),
        ampSq ((List.range (2 ^ n)).foldl (swapBody ma mb) S k)
      = ∑ k ∈ Finset.range (2 ^ n), ampSq (S k) := by
  have hcongr : ∀ k ∈ Finset.range (2 ^ n),
      ampSq ((List.range (2 ^ n)).foldl (swapBody ma mb) S k)
        = ampSq (if decide (¬ (decide (k &&& ma ≠ 0) = decide (k &&& mb ≠ 0))
              ∧ ¬ (k ^^^ ma ^^^ mb < k)) = true ∧ k < 2 ^ n then
              S (k ^^^ ma ^^^ mb)
            else if decide (¬ (decide ((k ^^^ ma ^^^ mb) &&& ma ≠ 0)
                  = decide ((k ^^^ ma ^^^ mb) &&& mb ≠ 0))
                ∧ ¬ ((k ^^^ ma ^^^ mb) ^^^ ma ^^^ mb < k ^^^ ma ^^^ mb)) = true
                ∧ k ^^^ ma ^^^ mb < 2 ^ n then
              S (k ^^^ ma ^^^ mb)
            else S k) := by
    intro k _
    rw [pair_foldl_char (swapBody ma mb)
      (fun i => decide (¬ (decide (i &&& ma ≠ 0) = decide (i &&& mb ≠ 0))
        ∧ ¬ (i ^^^ ma ^^^ mb < i)))
      (fun i => i ^^^ ma ^^^ mb)
      (fun _ c => c) (fun a _ => a)
      (swap_involution ma mb) (swap_ne ma mb) (swap_partner_not_selected ma mb)
      (swapBody_eq ma mb) S (2 ^ n) k]
  rw [Finset.sum_congr rfl hcongr]
  exact pair_sum_invariant
    (fun i => decide (¬ (decide (i &&& ma ≠ 0) = decide (i &&& mb ≠ 0))
      ∧ ¬ (i ^^^ ma ^^^ mb < i)))
    (fun i => i ^^^ ma ^^^ mb)
    (fun _ c => c) (fun a _ => a) S (2 ^ n) ampSq
    (swap_involution ma mb) (swap_partner_not_selected ma mb)
    (swap_partner_lt ma mb n hma hmb)
    (fun a c => add_comm (ampSq c) (ampSq a))

/-- Characterization of a single-slot map pass (used for CZ): each index
below the size selected by `p` is mapped by `g` using its old value. -/
theorem map_foldl_char (body : (ℕ → ℂ) → ℕ → ℕ → ℂ) (p : ℕ → Bool) (g : ℂ → ℂ)
    (hbody : ∀ f i, body f i = if p i then writeAt f i (g (f i)) else f)
    (S : ℕ → ℂ) :
    ∀ size k, (List.range size).foldl body S k =
      if p k = true ∧ k < size then g (S k) else S k := by
  intro size
  induction size with
  | zero =>
      intro k
      simp
  | succ t ih =>
      intro k
      rw [List.range_succ, List.foldl_append, List.foldl_cons, List.foldl_nil, hbody]
      rcases hp : p t with _ | _
      · simp only [Bool.false_eq_true, if_false]
        rw [ih k]
        rcases Nat.lt_trichotomy k t with h | h | h
        · by_cases h1 : p k = true
          · rw [if_pos ⟨h1, h⟩, if_pos ⟨h1, Nat.lt_succ_of_lt h⟩]
          · rw [if_neg (fun hc => h1 hc.1), if_neg (fun hc => h1 hc.1)]
        · subst h
          rw [if_neg (fun hc => absurd hc.1 (by simp [hp])),
            if_neg (fun hc => absurd hc.1 (by simp [hp]))]
        · rw [if_neg (fun hc => absurd hc.2 (by omega)),
            if_neg (fun hc => absurd hc.2 (by omega))]
      · have hFt : (List.range t).foldl body S t = S t := by
          rw [ih t, if_neg (fun hc => absurd hc.2 (lt_irrefl t))]
        simp only [if_true]
        rw [hFt]
        unfold writeAt
        by_cases hkt : k = t
        · rw [if_pos hkt, hkt, if_pos ⟨hp, Nat.lt_succ_self t⟩]
        · rw [if_neg hkt, ih k]
          by_cases h1 : p k = true
          · by_cases h2 : k < t
            · rw [if_pos ⟨h1, h2⟩, if_pos ⟨h1, Nat.lt_succ_of_lt h2⟩]
            · rw [if_neg (fun hc => h2 hc.2), if_neg (fun hc => absurd hc.2 (by omega))]
          · rw [if_neg (fun hc => h1 hc.1), if_neg (fun hc => h1 hc.1)]

/-- The CZ loop body in single-slot map form. -/
theorem czBody_eq (cm tm : ℕ) :
    ∀ f i, czBody cm tm f i =
      if decide (i &&& cm ≠ 0 ∧ i &&& tm ≠ 0) then writeAt f i (-f i) else f := by
  intro f i
  unfold czBody
  by_cases h1 : i &&& cm = 0
  · rw [if_pos h1, if_neg (by simp [h1])]
  · rw [if_neg h1]
    by_cases h2 : i &&& tm = 0
    · rw [if_pos h2, if_neg (by simp [h2])]
    · rw [if_neg h2, if_pos (by simp [h1, h2])]

/-- The CZ pass preserves the summed `|·|²` (it only flips signs). -/
theorem cz_foldl_norm (cm tm n : ℕ) (S : ℕ → ℂ) :
    ∑ k ∈ Finset.range (2 ^ n),
        ampSq ((List.range (2 ^ n)).foldl (czBody cm tm) S k)
      = ∑ k ∈ Finset.range (2 ^ n), ampSq (S k) := by
  refine Finset.sum_congr rfl ?_
  intro k _
  rw [map_foldl_char (czBody cm tm) (fun i => decide (i &&& cm ≠ 0 ∧ i &&& tm ≠ 0))
    (fun z => -z) (czBody_eq cm tm) S (2 ^ n) k]
  by_cases h : decide (k &&& cm ≠ 0 ∧ k &&& tm ≠ 0) = true ∧ k < 2 ^ n
  · rw [if_pos h]
    unfold ampSq
    rw [Complex.neg_re, Complex.neg_im]
    ring
  · rw [if_neg h]

/-- H has orthonormal columns. -/
theorem unitary_matH : UnitaryCols matH := by
  unfold UnitaryCols matH
  have h2 : Real.sqrt 2 * Real.sqrt 2 = 2 := Real.mul_self_sqrt (by norm_num)
  have hne : Real.sqrt 2 ≠ 0 := by
    have : (0 : ℝ) < Real.sqrt 2 := Real.sqrt_pos.mpr (by norm_num)
    exact ne_of_gt this
  refine ⟨?_, ?_, ?_, ?_⟩ <;> simp only [] <;> field_simp

/-- X has orthonormal columns. -/
theorem unitary_matX : UnitaryCols matX := by
  unfold UnitaryCols matX
  norm_num

/-- Y has orthonormal columns. -/
theorem unitary_matY : UnitaryCols matY := by
  unfold UnitaryCols matY
  norm_num

/-- Z has orthonormal columns. -/
theorem unitary_matZ : UnitaryCols matZ := by
  unfold UnitaryCols matZ
  norm_num

/-- S has orthonormal columns. -/
theorem unitary_matS : UnitaryCols matS := by
  unfold UnitaryCols matS
  norm_num

/-- T has orthonormal columns. -/
theorem unitary_matT : UnitaryCols matT := by
  unfold UnitaryCols matT
  have h2 : Real.sqrt (1 / 2) * Real.sqrt (1 / 2) = 1 / 2 :=
    Real.mul_self_sqrt (by norm_num)
  refine ⟨?_, ?_, ?_, ?_⟩ <;> simp only [] <;> nlinarith [h2]

/-- RX(θ) has orthonormal columns. -/
theorem unitary_matRX (theta : ℝ) : UnitaryCols (matRX theta) := by
  unfold UnitaryCols matRX
  have h := Real.sin_sq_add_cos_sq (theta / 2)
  refine ⟨?_, ?_, ?_, ?_⟩ <;> simp only [] <;> nlinarith [h]

/-- RY(θ) has orthonormal columns. -/
theorem unitary_matRY (theta : ℝ) : UnitaryCols (matRY theta) := by
  unfold UnitaryCols matRY
  have h := Real.sin_sq_add_cos_sq (theta / 2)
  refine ⟨?_, ?_, ?_, ?_⟩ <;> simp only [] <;> nlinarith [h]

/-- RZ(θ) has orthonormal columns. -/
theorem unitary_matRZ (theta : ℝ) : UnitaryCols (matRZ theta) := by
  unfold UnitaryCols matRZ
  have h := Real.sin_sq_add_cos_sq (theta / 2)
  refine ⟨?_, ?_, ?_, ?_⟩ <;> simp only [] <;> nlinarith [h]

/-- `mask(n, q)` is the power of two at the MSB-side position of `q`. -/
theorem maskForQubit_eq (n q : ℕ) : maskForQubit n q = 2 ^ (n - 1 - q) :=
  Nat.one_shiftLeft _

/-- `stateNorm` written through `ampSq`. -/
theorem stateNorm_eq (s : StateVector) :
    stateNorm s = ∑ k ∈ Finset.range (2 ^ s.nQubits), ampSq (s.amp k) := rfl

/-- A successful single-qubit kernel call with a column-orthonormal
matrix preserves the qubit count and the squared norm. -/
theorem kernelResult_m1_norm (s : StateVector) (t : ℕ) (m : ComplexMatrix2)
    (hU : UnitaryCols m) (s2 : StateVector)
    (h : kernelResult (applySingleQubitMatrix s t m) = Except.ok s2) :
    s2.nQubits = s.nQubits ∧ stateNorm s2 = stateNorm s := by
  unfold applySingleQubitMatrix at h
  by_cases ht : t < s.nQubits
  · rw [if_neg (fun hc => hc ht)] at h
    unfold kernelResult at h
    have hs2 : s2 = ⟨s.nQubits,
        (List.range (2 ^ s.nQubits)).foldl
          (singleQubitBody m (maskForQubit s.nQubits t)) s.amp⟩ :=
      (Except.ok.inj h).symm
    subst hs2
    refine ⟨rfl, ?_⟩
    rw [stateNorm_eq, stateNorm_eq]
    have hb : s.nQubits - 1 - t < s.nQubits := by omega
    have hnorm := singleQubit_foldl_norm m hU (s.nQubits - 1 - t) s.nQubits hb s.amp
    rw [maskForQubit_eq]
    exact hnorm
  · rw [if_pos ht] at h
    unfold kernelResult at h
    exact absurd h (by simp)

/-- A successful CNOT call preserves the qubit count and the squared norm. -/
theorem kernelResult_cnot_norm (s : StateVector) (c t : ℕ) (s2 : StateVector)
    (h : kernelResult (applyCNOT s c t) = Except.ok s2) :
    s2.nQubits = s.nQubits ∧ stateNorm s2 = stateNorm s := by
  unfold applyCNOT at h
  by_cases hc : c < s.nQubits
  · rw [if_neg (fun hx => hx hc)] at h
    by_cases ht : t < s.nQubits
    · rw [if_neg (fun hx => hx ht)] at h
      by_cases hct : c = t
      · rw [if_pos hct] at h
        unfold kernelResult at h
        exact absurd h (by simp)
      · rw [if_neg hct] at h
        unfold kernelResult at h
        have hs2 : s2 = ⟨s.nQubits,
            (List.range (2 ^ s.nQubits)).foldl
              (cnotBody (maskForQubit s.nQubits c) (maskForQubit s.nQubits t)) s.amp⟩ :=
          (Except.ok.inj h).symm
        subst hs2
        refine ⟨rfl, ?_⟩
        rw [stateNorm_eq, stateNorm_eq]
        have hb : s.nQubits - 1 - t < s.nQubits := by omega
        have hnorm := cnot_foldl_norm (s.nQubits - 1 - c) (s.nQubits - 1 - t)
          s.nQubits hb s.amp
        rw [maskForQubit_eq, maskForQubit_eq]
        exact hnorm
    · rw [if_pos ht] at h
      unfold kernelResult at h
      exact absurd h (by simp)
  · rw [if_pos hc] at h
    unfold kernelResult at h
    exact absurd h (by simp)

/-- A successful CZ call preserves the qubit count and the squared norm. -/
theorem kernelResult_cz_norm (s : StateVector) (c t : ℕ) (s2 : StateVector)
    (h : kernelResult (applyCZ s c t) = Except.ok s2) :
    s2.nQubits = s.nQubits ∧ stateNorm s2 = stateNorm s := by
  unfold applyCZ at h
  by_cases hc : c < s.nQubits
  · rw [if_neg (fun hx => hx hc)] at h
    by_cases ht : t < s.nQubits
    · rw [if_neg (fun hx => hx ht)] at h
      by_cases hct : c = t
      · rw [if_pos hct] at h
        unfold kernelResult at h
        exact absurd h (by simp)
      · rw [if_neg hct] at h
        unfold kernelResult at h
        have hs2 : s2 = ⟨s.nQubits,
            (List.range (2 ^ s.nQubits)).foldl
              (czBody (maskForQubit s.nQubits c) (maskForQubit s.nQubits t)) s.amp⟩ :=
          (Except.ok.inj h).symm
        subst hs2
        refine ⟨rfl, ?_⟩
        rw [stateNorm_eq, stateNorm_eq]
        exact cz_foldl_norm (maskForQubit s.nQubits c) (maskForQubit s.nQubits t)
          s.nQubits s.amp
    · rw [if_pos ht] at h
      unfold kernelResult at h
      exact absurd h (by simp)
  · rw [if_pos hc] at h
    unfold kernelResult at h
    exact absurd h (by simp)

/-- A successful SWAP call preserves the qubit count and the squared norm. -/
theorem kernelResult_swap_norm (s : StateVector) (a b : ℕ) (s2 : StateVector)
    (h : kernelResult (applySWAP s a b) = Except.ok s2) :
    s2.nQubits = s.nQubits ∧ stateNorm s2 = stateNorm s := by
  unfold applySWAP at h
  by_cases ha : a < s.nQubits
  · rw [if_neg (fun hx => hx ha)] at h
    by_cases hb : b < s.nQubits
    · rw [if_neg (fun hx => hx hb)] at h
      by_cases hab : a = b
      · rw [if_pos hab] at h
        unfold kernelResult at h
        have hs2 : s2 = s := (Except.ok.inj h).symm
        subst hs2
        exact ⟨rfl, rfl⟩
      · rw [if_neg hab] at h
        unfold kernelResult at h
        have hs2 : s2 = ⟨s.nQubits,
            (List.range (2 ^ s.nQubits)).foldl
              (swapBody (maskForQubit s.nQubits a) (maskForQubit s.nQubits b)) s.amp⟩ :=
          (Except.ok.inj h).symm
        subst hs2
        refine ⟨rfl, ?_⟩
        rw [stateNorm_eq, stateNorm_eq]
        have hma : maskForQubit s.nQubits a < 2 ^ s.nQubits := by
          rw [maskForQubit_eq]
          exact Nat.pow_lt_pow_right (by omega) (by omega)
        have hmb : maskForQubit s.nQubits b < 2 ^ s.nQubits := by
          rw [maskForQubit_eq]
          exact Nat.pow_lt_pow_right (by omega) (by omega)
        exact swap_foldl_norm (maskForQubit s.nQubits a) (maskForQubit s.nQubits b)
          s.nQubits hma hmb s.amp
    · rw [if_pos hb] at h
      unfold kernelResult at h
      exact absurd h (by simp)
  · rw [if_pos ha] at h
    unfold kernelResult at h
    exact absurd h (by simp)

/-- A successful `applyOp` preserves the qubit count and the squared norm. -/
theorem applyOp_norm (s : StateVector) (op : GateOp) (s2 : StateVector)
    (h : applyOp s op = Except.ok s2) :
    s2.nQubits = s.nQubits ∧ stateNorm s2 = stateNorm s := by
  cases op with
  | H t => exact kernelResult_m1_norm s t matH unitary_matH s2 h
  | X t => exact kernelResult_m1_norm s t matX unitary_matX s2 h
  | Y t => exact kernelResult_m1_norm s t matY unitary_matY s2 h
  | Z t => exact kernelResult_m1_norm s t matZ unitary_matZ s2 h
  | S t => exact kernelResult_m1_norm s t matS unitary_matS s2 h
  | T t => exact kernelResult_m1_norm s t matT unitary_matT s2 h
  | RX t th => exact kernelResult_m1_norm s t (matRX th) (unitary_matRX th) s2 h
  | RY t th => exact kernelResult_m1_norm s t (matRY th) (unitary_matRY th) s2 h
  | RZ t th => exact kernelResult_m1_norm s t (matRZ th) (unitary_matRZ th) s2 h
  | CNOT c t => exact kernelResult_cnot_norm s c t s2 h
  | CZ c t => exact kernelResult_cz_norm s c t s2 h
  | SWAP a b => exact kernelResult_swap_norm s a b s2 h
  | MEASURE t =>
      have hs2 : s2 = s := (Except.ok.inj h).symm
      subst hs2
      exact ⟨rfl, rfl⟩

/-- A successful step application preserves qubit count and norm. -/
theorem applyOps_norm : ∀ (ops : List GateOp) (s s2 : StateVector),
    applyOps s ops = Except.ok s2 →
    s2.nQubits = s.nQubits ∧ stateNorm s2 = stateNorm s := by
  intro ops
  induction ops with
  | nil =>
      intro s s2 h
      have hs2 : s2 = s := (Except.ok.inj h).symm
      subst hs2
      exact ⟨rfl, rfl⟩
  | cons op rest ih =>
      intro s s2 h
      unfold applyOps at h
      rcases hop : applyOp s op with e | s3
      · rw [hop] at h
        exact absurd h (by simp)
      · rw [hop] at h
        obtain ⟨h1, h2⟩ := applyOp_norm s op s3 hop
        obtain ⟨h3, h4⟩ := ih s3 s2 h
        exact ⟨h3.trans h1, h4.trans h2⟩

/-- A successful run of the remaining steps preserves qubit count and norm. -/
theorem runSteps_norm : ∀ (steps : List (List GateOp)) (n : ℕ) (s s2 : StateVector),
    runSteps n s steps = Except.ok s2 →
    s2.nQubits = s.nQubits ∧ stateNorm s2 = stateNorm s := by
  intro steps
  induction steps with
  | nil =>
      intro n s s2 h
      have hs2 : s2 = s := (Except.ok.inj h).symm
      subst hs2
      exact ⟨rfl, rfl⟩
  | cons step rest ih =>
      intro n s s2 h
      unfold runSteps at h
      rcases hv : validateStep n step with e | u
      · rw [hv] at h
        exact absurd h (by simp)
      · rw [hv] at h
        rcases hop : applyOps s step with e | s3
        · rw [hop] at h
          exact absurd h (by simp)
        · rw [hop] at h
          obtain ⟨h1, h2⟩ := applyOps_norm step s s3 hop
          obtain ⟨h3, h4⟩ := ih n s3 s2 h
          exact ⟨h3.trans h1, h4.trans h2⟩

/-- The zero state has unit squared norm. -/
theorem zeroState_norm (n : ℕ) : stateNorm (zeroState n) = 1 := by
  rw [stateNorm_eq]
  have hmem : (0 : ℕ) ∈ Finset.range (2 ^ n) := by
    rw [Finset.mem_range]
    positivity
  rw [Finset.sum_eq_single 0]
  · simp [zeroState, ampSq]
  · intro k _ hk
    simp [zeroState, hk, ampSq]
  · intro habs
    exact absurd hmem habs

/-- C1: for every circuit accepted by `simulateCircuit`, the returned
state has `Σ_k re[k]² + im[k]² = 1` — exactly, in the real-arithmetic
model (hence within the claimed `1e-9`), with no renormalization step
anywhere in the execution path. -/
theorem simulate_norm_invariant (c : Circuit) (s : StateVector)
    (h : simulateCircuit c = Except.ok s) :
    stateNorm s = 1 := by
  unfold simulateCircuit at h
  by_cases h0 : c.nQubits = 0
  · rw [if_pos h0] at h
    exact absurd h (by simp)
  · rw [if_neg h0] at h
    by_cases h20 : 20 < c.nQubits
    · rw [if_pos h20] at h
      exact absurd h (by simp)
    · rw [if_neg h20] at h
      obtain ⟨_, hnorm⟩ := runSteps_norm c.steps c.nQubits (zeroState c.nQubits) s h
      rw [hnorm, zeroState_norm]

/-- Witness for C1 at the concrete circuit `n = 1`, one `MEASURE` step. -/
theorem simulate_norm_invariant_witness :
    simulateCircuit ⟨1, [[GateOp.MEASURE 0]]⟩ = Except.ok (zeroState 1) ∧
    stateNorm (zeroState 1) = 1 :=
  ⟨rfl, simulate_norm_invariant ⟨1, [[GateOp.MEASURE 0]]⟩ (zeroState 1) rfl⟩

/-- C2: the single-qubit kernel reports no error on a valid target and
rewrites the buffer exactly by the simultaneous pair update: an index
with the target bit clear receives `m00·old(S[i]) + m01·old(S[j])`, its
partner `j = i | mask` receives `m10·old(S[i]) + m11·old(S[j])`
(`mask = 1 << (n-1-target)`), and slots outside the buffer are unchanged. -/
theorem single_qubit_kernel_spec (s : StateVector) (target : ℕ) (m : ComplexMatrix2)
    (h : target < s.nQubits) :
    (applySingleQubitMatrix s target m).2 = none ∧
    (applySingleQubitMatrix s target m).1.nQubits = s.nQubits ∧
    ∀ k, (applySingleQubitMatrix s target m).1.amp k =
      if k < 2 ^ s.nQubits then
        (if k &&& maskForQubit s.nQubits target = 0 then
          m.m00 * s.amp k + m.m01 * s.amp (k ||| maskForQubit s.nQubits target)
        else m.m10 * s.amp (k ^^^ maskForQubit s.nQubits target) + m.m11 * s.amp k)
      else s.amp k := by
  unfold applySingleQubitMatrix
  rw [if_neg (not_not_intro h)]
  refine ⟨rfl, rfl, ?_⟩
  intro k
  show (List.range (2 ^ s.nQubits)).foldl
      (singleQubitBody m (maskForQubit s.nQubits target)) s.amp k = _
  rw [maskForQubit_eq]
  exact singleQubit_foldl_eq m (s.nQubits - 1 - target) s.nQubits (by omega) s.amp k

/-- Witness for C2 at `zeroState 1`, target 0, matrix X, index 1. -/
theorem single_qubit_kernel_spec_witness :
    0 < (zeroState 1).nQubits ∧
    (applySingleQubitMatrix (zeroState 1) 0 matX).1.amp 1 =
      (if 1 < 2 ^ (zeroState 1).nQubits then
        (if 1 &&& maskForQubit (zeroState 1).nQubits 0 = 0 then
          matX.m00 * (zeroState 1).amp 1 +
            matX.m01 * (zeroState 1).amp (1 ||| maskForQubit (zeroState 1).nQubits 0)
        else matX.m10 * (zeroState 1).amp (1 ^^^ maskForQubit (zeroState 1).nQubits 0) +
          matX.m11 * (zeroState 1).amp 1)
      else (zeroState 1).amp 1) :=
  ⟨by decide, (single_qubit_kernel_spec (zeroState 1) 0 matX (by decide)).2.2 1⟩

/-- C6: every gate kernel validates before its first write, so an
invalid argument (out-of-range index; identical control/target for
CNOT/CZ) reports an error with the buffer exactly as it was. -/
theorem gate_kernels_atomic (s : StateVector) (q c t a b : ℕ) (m : ComplexMatrix2) :
    (s.nQubits ≤ q →
      (applySingleQubitMatrix s q m).1 = s ∧ (applySingleQubitMatrix s q m).2 ≠ none) ∧
    (s.nQubits ≤ c ∨ s.nQubits ≤ t ∨ c = t →
      (applyCNOT s c t).1 = s ∧ (applyCNOT s c t).2 ≠ none) ∧
    (s.nQubits ≤ c ∨ s.nQubits ≤ t ∨ c = t →
      (applyCZ s c t).1 = s ∧ (applyCZ s c t).2 ≠ none) ∧
    (s.nQubits ≤ a ∨ s.nQubits ≤ b →
      (applySWAP s a b).1 = s ∧ (applySWAP s a b).2 ≠ none) := by
  refine ⟨?_, ?_, ?_, ?_⟩
  · intro hq
    unfold applySingleQubitMatrix
    rw [if_pos (by omega)]
    exact ⟨rfl, by simp⟩
  · intro hbad
    unfold applyCNOT
    by_cases hc : c < s.nQubits
    · rw [if_neg (fun hx => hx hc)]
      by_cases ht : t < s.nQubits
      · rw [if_neg (fun hx => hx ht)]
        have hct : c = t := by
          rcases hbad with h | h | h
          · omega
          · omega
          · exact h
        rw [if_pos hct]
        exact ⟨rfl, by simp⟩
      · rw [if_pos ht]
        exact ⟨rfl, by simp⟩
    · rw [if_pos hc]
      exact ⟨rfl, by simp⟩
  · intro hbad
    unfold applyCZ
    by_cases hc : c < s.nQubits
    · rw [if_neg (fun hx => hx hc)]
      by_cases ht : t < s.nQubits
      · rw [if_neg (fun hx => hx ht)]
        have hct : c = t := by
          rcases hbad with h | h | h
          · omega
          · omega
          · exact h
        rw [if_pos hct]
        exact ⟨rfl, by simp⟩
      · rw [if_pos ht]
        exact ⟨rfl, by simp⟩
    · rw [if_pos hc]
      exact ⟨rfl, by simp⟩
  · intro hbad
    unfold applySWAP
    by_cases ha : a < s.nQubits
    · rw [if_neg (fun hx => hx ha)]
      have hb : ¬ b < s.nQubits := by omega
      rw [if_pos hb]
      exact ⟨rfl, by simp⟩
    · rw [if_pos ha]
      exact ⟨rfl, by simp⟩

/-- Witness for C6 at `zeroState 1` with an out-of-range target, equal
CNOT/CZ qubits, and an out-of-range SWAP argument. -/
theorem gate_kernels_atomic_witness :
    ((applySingleQubitMatrix (zeroState 1) 5 matX).1 = zeroState 1 ∧
      (applySingleQubitMatrix (zeroState 1) 5 matX).2 ≠ none) ∧
    ((applyCNOT (zeroState 1) 0 0).1 = zeroState 1 ∧ (applyCNOT (zeroState 1) 0 0).2 ≠ none) ∧
    ((applyCZ (zeroState 1) 0 0).1 = zeroState 1 ∧ (applyCZ (zeroState 1) 0 0).2 ≠ none) ∧
    ((applySWAP (zeroState 1) 3 0).1 = zeroState 1 ∧ (applySWAP (zeroState 1) 3 0).2 ≠ none) := by
  have H := gate_kernels_atomic (zeroState 1) 5 0 0 3 0 matX
  exact ⟨H.1 (by decide), H.2.1 (Or.inr (Or.inr rfl)), H.2.2.1 (Or.inr (Or.inr rfl)),
    H.2.2.2 (Or.inl (by decide))⟩

/-- C5 counterexample: the circuit whose only step is `[SWAP(0, 0)]` on
one qubit is rejected by step validation (`touchedQubits` lists qubit 0
twice), so `simulate` does not return `zeroState 1`. -/
theorem simulate_swap_self_cex :
    simulateCircuit ⟨1, [[GateOp.SWAP 0 0]]⟩ ≠ Except.ok (zeroState 1) ∧
    simulateCircuit ⟨1, [[GateOp.SWAP 0 0]]⟩ =
      Except.error "Invalid step: multiple ops touch a qubit." := by
  have he : simulateCircuit ⟨1, [[GateOp.SWAP 0 0]]⟩ =
      Except.error "Invalid step: multiple ops touch a qubit." := rfl
  refine ⟨?_, he⟩
  rw [he]
  simp

/-- C5 amended: `applySWAP` itself treats `a == b` as the identity
(returning the unchanged state with no error), but `validateStep`
rejects a step containing `SWAP(a, a)` because the op's touched-qubit
list contains `a` twice, so `simulate` fails with the step error
instead of returning `zeroState n`. -/
theorem swap_self_amended (s : StateVector) (n a : ℕ) :
    (a < s.nQubits → applySWAP s a a = (s, none)) ∧
    (1 ≤ n → n ≤ 20 → a < n →
      simulateCircuit ⟨n, [[GateOp.SWAP a a]]⟩ =
        Except.error "Invalid step: multiple ops touch a qubit.") := by
  constructor
  · intro ha
    unfold applySWAP
    rw [if_neg (not_not_intro ha), if_neg (not_not_intro ha), if_pos rfl]
  · intro h1 h20 han
    have hmq : markQubits n [a, a] (fun _ => false) =
        Except.error "Invalid step: multiple ops touch a qubit." := by
      unfold markQubits
      rw [if_neg (not_not_intro han), if_neg (by simp)]
      unfold markQubits
      rw [if_neg (not_not_intro han), if_pos (by simp)]
    have hv : validateStep n [GateOp.SWAP a a] =
        Except.error "Invalid step: multiple ops touch a qubit." := by
      unfold validateStep markStep
      rw [show touchedQubits (GateOp.SWAP a a) = [a, a] from rfl, hmq]
    have hne0 : ¬ n = 0 := by omega
    have hle : ¬ 20 < n := by omega
    unfold simulateCircuit
    simp only [hne0, hle, if_false]
    unfold runSteps
    rw [hv]

/-- Witness for C5's amended statement at `s = zeroState 2`, `n = 1`, `a = 0`. -/
theorem swap_self_amended_witness :
    applySWAP (zeroState 2) 0 0 = (zeroState 2, none) ∧
    simulateCircuit ⟨1, [[GateOp.SWAP 0 0]]⟩ =
      Except.error "Invalid step: multiple ops touch a qubit." := by
  have H := swap_self_amended (zeroState 2) 1 0
  exact ⟨H.1 (by decide), H.2 (by decide) (by decide) (by decide)⟩

/-- Amplitudes of `H|0⟩` on one qubit: both equal `1/√2`. -/
theorem applyH_zero_amp :
    (applyH (zeroState 1) 0).1.amp 0 = (⟨1 / Real.sqrt 2, 0⟩ : ℂ) ∧
    (applyH (zeroState 1) 0).1.amp 1 = (⟨1 / Real.sqrt 2, 0⟩ : ℂ) := by
  have hH : (applyH (zeroState 1) 0).1.amp =
      (List.range (2 ^ 1)).foldl (singleQubitBody matH (2 ^ 0)) (zeroState 1).amp := rfl
  constructor
  · rw [hH, singleQubit_foldl_eq matH 0 1 Nat.zero_lt_one (zeroState 1).amp 0]
    norm_num [zeroState, matH]
  · rw [hH, singleQubit_foldl_eq matH 0 1 Nat.zero_lt_one (zeroState 1).amp 1]
    norm_num [zeroState, matH]

/-- C7: with the engine's sign convention `y = −2·Im(ρ01)`, the Bloch
vector of `H|0⟩` is `(+1, 0, 0)` and that of `S·H|0⟩` is `(0, +1, 0)`
(exactly, in the real-arithmetic model, hence within `1e-9`). -/
theorem bloch_sign_conventions :
    (applyH (zeroState 1) 0).2 = none ∧
    blochVector (applyH (zeroState 1) 0).1 0 = Except.ok ⟨1, 0, 0⟩ ∧
    (applyS (applyH (zeroState 1) 0).1 0).2 = none ∧
    blochVector (applyS (applyH (zeroState 1) 0).1 0).1 0 = Except.ok ⟨0, 1, 0⟩ := by
  obtain ⟨ha0, ha1⟩ := applyH_zero_amp
  have hs2 : Real.sqrt 2 * Real.sqrt 2 = 2 := Real.mul_self_sqrt (by norm_num)
  have hsne : Real.sqrt 2 ≠ 0 :=
    ne_of_gt (Real.sqrt_pos.mpr (by norm_num))
  have hr2 : List.range 2 = [0, 1] := rfl
  refine ⟨rfl, ?_, rfl, ?_⟩
  · have hb : blochVector (applyH (zeroState 1) 0).1 0 =
        Except.ok ⟨2 * (blochAccum 1 (applyH (zeroState 1) 0).1.amp 2).2.2.1,
          -2 * (blochAccum 1 (applyH (zeroState 1) 0).1.amp 2).2.2.2,
          (blochAccum 1 (applyH (zeroState 1) 0).1.amp 2).1
            - (blochAccum 1 (applyH (zeroState 1) 0).1.amp 2).2.1⟩ := rfl
    rw [hb]
    unfold blochAccum
    rw [hr2]
    simp only [List.foldl_cons, List.foldl_nil]
    norm_num [ha0, ha1]
    rw [← mul_inv, hs2]
    norm_num
  · have hS : (applyS (applyH (zeroState 1) 0).1 0).1.amp =
        (List.range (2 ^ 1)).foldl (singleQubitBody matS (2 ^ 0))
          (applyH (zeroState 1) 0).1.amp := rfl
    have hb0 : (applyS (applyH (zeroState 1) 0).1 0).1.amp 0 = (⟨1 / Real.sqrt 2, 0⟩ : ℂ) := by
      rw [hS, singleQubit_foldl_eq matS 0 1 Nat.zero_lt_one _ 0]
      norm_num [matS, ha0, ha1, Complex.ext_iff, Complex.mul_re, Complex.mul_im,
        Complex.add_re, Complex.add_im]
    have hb1 : (applyS (applyH (zeroState 1) 0).1 0).1.amp 1 = (⟨0, 1 / Real.sqrt 2⟩ : ℂ) := by
      rw [hS, singleQubit_foldl_eq matS 0 1 Nat.zero_lt_one _ 1]
      norm_num [matS, ha0, ha1, Complex.ext_iff, Complex.mul_re, Complex.mul_im,
        Complex.add_re, Complex.add_im]
    have hb : blochVector (applyS (applyH (zeroState 1) 0).1 0).1 0 =
        Except.ok ⟨2 * (blochAccum 1 (applyS (applyH (zeroState 1) 0).1 0).1.amp 2).2.2.1,
          -2 * (blochAccum 1 (applyS (applyH (zeroState 1) 0).1 0).1.amp 2).2.2.2,
          (blochAccum 1 (applyS (applyH (zeroState 1) 0).1 0).1.amp 2).1
            - (blochAccum 1 (applyS (applyH (zeroState 1) 0).1 0).1.amp 2).2.1⟩ := rfl
    rw [hb]
    unfold blochAccum
    rw [hr2]
    simp only [List.foldl_cons, List.foldl_nil]
    norm_num [hb0, hb1]
    rw [← mul_inv, hs2]
    norm_num

/-! ## Sampler lemmas -/

/-- The cdf pass produces one entry per probability. -/
theorem buildCdf_length : ∀ (ps : List JSNum) (t : JSNum), (buildCdf ps t).1.length = ps.length := by
  intro ps
  induction ps with
  | nil => intro t; rfl
  | cons p rest ih =>
      intro t
      unfold buildCdf
      simp [ih]

/-- The binary search never exceeds its upper bound. -/
theorem bsearch_le (r : JSNum) (cdf : List JSNum) :
    ∀ d lo hi, hi - lo ≤ d → lo ≤ hi → bsearch r cdf lo hi ≤ hi := by
  intro d
  induction d with
  | zero =>
      intro lo hi hd hle
      unfold bsearch
      rw [if_neg (by omega : ¬ lo < hi)]
      omega
  | succ d ih =>
      intro lo hi hd hle
      by_cases hlt : lo < hi
      · unfold bsearch
        rw [if_pos hlt]
        have hmid : (lo + hi) >>> 1 < hi := by
          rw [Nat.shiftRight_one]
          omega
        have hmid2 : lo ≤ (lo + hi) >>> 1 := by
          rw [Nat.shiftRight_one]
          omega
        show (if jsLe r (cdf.getD ((lo + hi) >>> 1) JSNum.nan) then
            bsearch r cdf lo ((lo + hi) >>> 1)
          else bsearch r cdf ((lo + hi) >>> 1 + 1) hi) ≤ hi
        by_cases hc : jsLe r (cdf.getD ((lo + hi) >>> 1) JSNum.nan) = true
        · rw [if_pos hc]
          exact le_trans (ih lo ((lo + hi) >>> 1) (by omega) hmid2) (le_of_lt hmid)
        · rw [if_neg hc]
          exact ih ((lo + hi) >>> 1 + 1) hi (by omega) (by omega)
      · unfold bsearch
        rw [if_neg hlt]
        omega

/-- Any entry of a list of naturals is at most the sum. -/
theorem getD_le_sum : ∀ (c : List ℕ) (i : ℕ), c.getD i 0 ≤ c.sum := by
  intro c
  induction c with
  | nil => intro i; simp
  | cons x xs ih =>
      intro i
      cases i with
      | zero => simp
      | succ j =>
          rw [List.getD_cons_succ, List.sum_cons]
          exact le_trans (ih j) (Nat.le_add_left _ _)

/-- Setting one slot of a counters list shifts the sum by the delta. -/
theorem sum_set_nat : ∀ (c : List ℕ) (i v : ℕ), i < c.length →
    (c.set i v).sum + c.getD i 0 = c.sum + v := by
  intro c
  induction c with
  | nil =>
      intro i v h
      simp at h
  | cons x xs ih =>
      intro i v h
      cases i with
      | zero =>
          simp
          omega
      | succ j =>
          rw [List.set_cons_succ, List.sum_cons, List.sum_cons, List.getD_cons_succ]
          have := ih j v (by simpa using h)
          omega

/-- `bumpAt` preserves the length. -/
theorem bumpAt_length (c : List ℕ) (i : ℕ) : (bumpAt c i).length = c.length := by
  unfold bumpAt
  exact List.length_set c i _

/-- Without counter overflow, `bumpAt` adds exactly one. -/
theorem bumpAt_sum (c : List ℕ) (i : ℕ) (hi : i < c.length)
    (hov : c.getD i 0 + 1 < 4294967296) :
    (bumpAt c i).sum = c.sum + 1 := by
  unfold bumpAt
  rw [Nat.mod_eq_of_lt hov]
  have := sum_set_nat c i (c.getD i 0 + 1) hi
  omega

/-- The draw loop always preserves the counters' length. -/
theorem drawLoop_length (cdf : List JSNum) (total : JSNum) :
    ∀ m t c, (drawLoop cdf total m t c).length = c.length := by
  intro m
  induction m with
  | zero => intro t c; rfl
  | succ m ih =>
      intro t c
      show (drawLoop cdf total m (mulberryNext t).1
          (bumpAt c (bsearch (jsMul (JSNum.num (mulberryNext t).2) total) cdf 0
            (cdf.length - 1)))).length = c.length
      rw [ih, bumpAt_length]

/-- Each draw of the loop lands on an index inside the counters (the
search stays within `[0, len)`), so without counter overflow the loop
adds exactly its number of draws to the total count. -/
theorem drawLoop_sum (cdf : List JSNum) (total : JSNum) (hne : cdf ≠ []) :
    ∀ m t c, c.length = cdf.length → c.sum + m < 4294967296 →
      (drawLoop cdf total m t c).sum = c.sum + m := by
  intro m
  induction m with
  | zero =>
      intro t c _ _
      rfl
  | succ m ih =>
      intro t c hlen hov
      have hlenpos : 0 < cdf.length := List.length_pos.mpr hne
      have hlo : bsearch (jsMul (JSNum.num (mulberryNext t).2) total) cdf 0 (cdf.length - 1)
          < c.length := by
        have := bsearch_le (jsMul (JSNum.num (mulberryNext t).2) total) cdf
          (cdf.length - 1) 0 (cdf.length - 1) (by omega) (by omega)
        omega
      have hget := getD_le_sum c
        (bsearch (jsMul (JSNum.num (mulberryNext t).2) total) cdf 0 (cdf.length - 1))
      have hbsum := bumpAt_sum c
        (bsearch (jsMul (JSNum.num (mulberryNext t).2) total) cdf 0 (cdf.length - 1))
        hlo (by omega)
      have hblen := bumpAt_length c
        (bsearch (jsMul (JSNum.num (mulberryNext t).2) total) cdf 0 (cdf.length - 1))
      show (drawLoop cdf total m (mulberryNext t).1
          (bumpAt c (bsearch (jsMul (JSNum.num (mulberryNext t).2) total) cdf 0
            (cdf.length - 1)))).sum = c.sum + (m + 1)
      rw [ih (mulberryNext t).1 _ (hblen.trans hlen) (by omega), hbsum]
      omega

/-- With a one-entry cdf every draw increments the single (wrapping)
counter: after `m` draws it holds `(v + m) mod 2^32`. -/
theorem drawLoop_single (x total : JSNum) :
    ∀ m t v, v < 4294967296 →
      drawLoop [x] total m t [v] = [(v + m) % 4294967296] := by
  intro m
  induction m with
  | zero =>
      intro t v hv
      show [v] = [(v + 0) % 4294967296]
      rw [Nat.add_zero, Nat.mod_eq_of_lt hv]
  | succ m ih =>
      intro t v hv
      have hsearch : ∀ r : JSNum, bsearch r [x] 0 (([x] : List JSNum).length - 1) = 0 := by
        intro r
        unfold bsearch
        rw [if_neg (by norm_num)]
      show drawLoop [x] total m (mulberryNext t).1
          (bumpAt [v] (bsearch (jsMul (JSNum.num (mulberryNext t).2) total) [x] 0
            (([x] : List JSNum).length - 1)))
        = [(v + (m + 1)) % 4294967296]
      rw [hsearch]
      have hbump : bumpAt [v] 0 = [(v + 1) % 4294967296] := rfl
      rw [hbump, ih (mulberryNext t).1 ((v + 1) % 4294967296) (Nat.mod_lt _ (by norm_num))]
      congr 1
      omega

/-- The sampler always returns one counter per probability entry. -/
theorem sampleAllQubits_length (probs : List JSNum) (shots seed : JSNum) :
    (sampleAllQubits probs shots seed).length = probs.length := by
  unfold sampleAllQubits
  by_cases h0 : safeShots shots = 0 ∨ probs.length = 0
  · rw [if_pos h0]
    exact List.length_replicate _ _
  · rw [if_neg h0]
    by_cases hz : jsEqZero (buildCdf probs (JSNum.num 0)).2 = true
    · rw [if_pos hz]
      exact List.length_replicate _ _
    · rw [if_neg hz]
      rw [drawLoop_length, List.length_replicate]

/-- Whenever the running total is not `=== 0` (in particular when it is
`NaN`), every draw lands on an index inside the counters and, absent
counter wrap-around, the counts sum to the coerced shot count. -/
theorem sampleAllQubits_sum (probs : List JSNum) (shots seed : JSNum)
    (hne : probs ≠ []) (hz : jsEqZero (cdfTotal probs) = false)
    (hov : safeShots shots < 4294967296) :
    (sampleAllQubits probs shots seed).sum = safeShots shots := by
  unfold sampleAllQubits
  by_cases h0 : safeShots shots = 0
  · rw [if_pos (Or.inl h0), h0]
    simp
  · have hlen : probs.length ≠ 0 := by
      intro hc
      exact hne (List.length_eq_zero.mp hc)
    rw [if_neg (by push_neg; exact ⟨h0, hlen⟩)]
    have hz2 : ¬ jsEqZero (buildCdf probs (JSNum.num 0)).2 = true := by
      rw [show (buildCdf probs (JSNum.num 0)).2 = cdfTotal probs from rfl, hz]
      simp
    rw [if_neg hz2]
    have hcdfne : (buildCdf probs (JSNum.num 0)).1 ≠ [] := by
      intro hc
      have := buildCdf_length probs (JSNum.num 0)
      rw [hc] at this
      exact hlen this.symm
    have hcl : (List.replicate probs.length 0).length
        = (buildCdf probs (JSNum.num 0)).1.length := by
      rw [List.length_replicate, buildCdf_length]
    have hsum0 : (List.replicate probs.length (0 : ℕ)).sum = 0 := by
      simp
    rw [drawLoop_sum _ _ hcdfne _ _ _ hcl (by rw [hsum0]; omega), hsum0]
    omega

/-- C4 counterexample: with `probs = [1]` and `shots = 2^32` the claim's
premises hold (`shots ≥ 0`, `Σ probs > 0`, coercion `max(0, floor)` is
`2^32`), but the single `Uint32Array` counter wraps and the counts sum
to `0`, not `2^32`. -/
theorem sample_counts_overflow_cex :
    safeShots (JSNum.num 4294967296) = 4294967296 ∧
    jsLt (JSNum.num 0) (cdfTotal [JSNum.num 1]) = true ∧
    (sampleAllQubits [JSNum.num 1] (JSNum.num 4294967296) (JSNum.num 0)).sum = 0 := by
  have h1 : safeShots (JSNum.num 4294967296) = 4294967296 := by decide
  refine ⟨h1, ?_, ?_⟩
  · show jsLt (JSNum.num 0) (JSNum.num (0 + 1)) = true
    simp [jsLt]
  · unfold sampleAllQubits
    rw [h1]
    rw [if_neg (by norm_num)]
    have hz : ¬ jsEqZero (buildCdf [JSNum.num 1] (JSNum.num 0)).2 = true := by
      show ¬ jsEqZero (JSNum.num (0 + 1)) = true
      simp [jsEqZero]
    rw [if_neg hz]
    have hd := drawLoop_single (JSNum.num (0 + 1)) (buildCdf [JSNum.num 1] (JSNum.num 0)).2
      4294967296 (jsToUint32 (JSNum.num 0)) 0 (by norm_num)
    rw [show (buildCdf [JSNum.num 1] (JSNum.num 0)).1 = [JSNum.num (0 + 1)] from rfl]
    rw [show List.replicate ([JSNum.num 1] : List JSNum).length (0 : ℕ) = [0] from rfl]
    rw [hd]
    norm_num

/-- C4 (amended: counts are `Uint32Array` cells, so equality with the
coerced shot count additionally needs `max(0, floor(shots)) < 2^32`;
otherwise counters wrap): the sampler returns one integer counter per
probability; the counts sum to the coerced shot count whenever the
cumulative total is strictly positive and no wrap occurs; and they sum
to `0` when `shots ≤ 0`, `probs` is empty, or the total is exactly `0`. -/
theorem sample_counts_amended (probs : List JSNum) (shots seed : JSNum) :
    (sampleAllQubits probs shots seed).length = probs.length ∧
    (jsLt (JSNum.num 0) (cdfTotal probs) = true → safeShots shots < 4294967296 →
      (sampleAllQubits probs shots seed).sum = safeShots shots) ∧
    ((jsLe shots (JSNum.num 0) = true ∨ probs = [] ∨ cdfTotal probs = JSNum.num 0) →
      (sampleAllQubits probs shots seed).sum = 0) := by
  refine ⟨sampleAllQubits_length probs shots seed, ?_, ?_⟩
  · intro hpos hov
    have hne : probs ≠ [] := by
      intro hc
      subst hc
      exact absurd hpos (by simp [cdfTotal, buildCdf, jsLt])
    have hz : jsEqZero (cdfTotal probs) = false := by
      rcases htot : cdfTotal probs with _ | _ | _ | q
      · rfl
      · rfl
      · rfl
      · rw [htot] at hpos
        have hq : 0 < q := by
          have := of_decide_eq_true (by simpa [jsLt] using hpos)
          exact this
        simp only [jsEqZero, decide_eq_false_iff_not]
        exact ne_of_gt hq
    exact sampleAllQubits_sum probs shots seed hne hz hov
  · intro hcase
    rcases hcase with h | h | h
    · have hss : safeShots shots = 0 := by
        rcases hsh : shots with _ | _ | _ | q
        · rw [hsh] at h
          exact absurd h (by simp [jsLe])
        · rw [hsh] at h
          exact absurd h (by simp [jsLe])
        · rfl
        · rw [hsh] at h
          have hq : q ≤ 0 := of_decide_eq_true (by simpa [jsLe] using h)
          have hfl : q.floor ≤ 0 := by
            by_contra hc
            push_neg at hc
            have h1q : (1 : ℤ) ≤ q.floor := hc
            have := Rat.le_floor.mp h1q
            push_cast at this
            linarith
          show (max 0 q.floor).toNat = 0
          omega
      unfold sampleAllQubits
      rw [if_pos (Or.inl hss)]
      simp
    · subst h
      simp [sampleAllQubits]
    · by_cases h0 : safeShots shots = 0 ∨ probs.length = 0
      · unfold sampleAllQubits
        rw [if_pos h0]
        simp
      · unfold sampleAllQubits
        rw [if_neg h0]
        rw [if_pos]
        · simp
        · rw [show (buildCdf probs (JSNum.num 0)).2 = cdfTotal probs from rfl, h]
          simp [jsEqZero]

/-- Witness for C4's amended statement at `probs = [1]`, `shots = 3`. -/
theorem sample_counts_amended_witness :
    (sampleAllQubits [JSNum.num 1] (JSNum.num 3) (JSNum.num 0)).length = 1 ∧
    (sampleAllQubits [JSNum.num 1] (JSNum.num 3) (JSNum.num 0)).sum
      = safeShots (JSNum.num 3) := by
  have H := sample_counts_amended [JSNum.num 1] (JSNum.num 3) (JSNum.num 0)
  refine ⟨H.1, H.2.1 ?_ ?_⟩
  · show jsLt (JSNum.num 0) (JSNum.num (0 + 1)) = true
    simp [jsLt]
  · decide

/-- C8: the sampler is a pure function of `(probs, shots, seed)` — equal
inputs give element-wise equal counts. -/
theorem sampler_deterministic (p1 p2 : List JSNum) (s1 s2 k1 k2 : JSNum)
    (hp : p1 = p2) (hs : s1 = s2) (hk : k1 = k2) :
    sampleAllQubits p1 s1 k1 = sampleAllQubits p2 s2 k2 := by
  rw [hp, hs, hk]

/-- Witness for C8 on a concrete input. -/
theorem sampler_deterministic_witness :
    sampleAllQubits [JSNum.num 1] (JSNum.num 3) (JSNum.num 7)
      = sampleAllQubits [JSNum.num 1] (JSNum.num 3) (JSNum.num 7) :=
  sampler_deterministic [JSNum.num 1] [JSNum.num 1] (JSNum.num 3) (JSNum.num 3)
    (JSNum.num 7) (JSNum.num 7) rfl rfl rfl

/-- C10: the sampler is total — for any probability entries (NaN,
negative, infinite), any shots and any seed it returns a counts vector
of the probabilities' length; a NaN cumulative total is not `=== 0`, so
sampling proceeds and (absent counter wrap) every draw lands on an
index in `[0, len)`, making the counts sum to the coerced shot count. -/
theorem sampler_total_safe (probs : List JSNum) (shots seed : JSNum) :
    (sampleAllQubits probs shots seed).length = probs.length ∧
    jsEqZero JSNum.nan = false ∧
    (probs ≠ [] → ∀ r : JSNum,
      bsearch r (buildCdf probs (JSNum.num 0)).1 0
        ((buildCdf probs (JSNum.num 0)).1.length - 1) < probs.length) ∧
    (probs ≠ [] → jsEqZero (cdfTotal probs) = false → safeShots shots < 4294967296 →
      (sampleAllQubits probs shots seed).sum = safeShots shots) := by
  refine ⟨sampleAllQubits_length probs shots seed, rfl, ?_,
    fun hne hz hov => sampleAllQubits_sum probs shots seed hne hz hov⟩
  intro hne r
  have hlen : (buildCdf probs (JSNum.num 0)).1.length = probs.length :=
    buildCdf_length probs (JSNum.num 0)
  have hpos : 0 < probs.length := List.length_pos.mpr hne
  have := bsearch_le r (buildCdf probs (JSNum.num 0)).1
    ((buildCdf probs (JSNum.num 0)).1.length - 1) 0
    ((buildCdf probs (JSNum.num 0)).1.length - 1) (by omega) (by omega)
  omega

/-- Witness for C10 with a NaN probability entry (total is NaN). -/
theorem sampler_total_safe_witness :
    (sampleAllQubits [JSNum.nan] (JSNum.num 2) (JSNum.num 0)).length = 1 ∧
    jsEqZero JSNum.nan = false ∧
    bsearch JSNum.nan (buildCdf [JSNum.nan] (JSNum.num 0)).1 0
      ((buildCdf [JSNum.nan] (JSNum.num 0)).1.length - 1) < 1 ∧
    (sampleAllQubits [JSNum.nan] (JSNum.num 2) (JSNum.num 0)).sum
      = safeShots (JSNum.num 2) := by
  have H := sampler_total_safe [JSNum.nan] (JSNum.num 2) (JSNum.num 0)
  exact ⟨H.1, H.2.1, H.2.2.1 (by decide) JSNum.nan,
    H.2.2.2 (by decide) (by decide) (by decide)⟩

/-! ## Mulberry32 lemmas -/

/-- `ToUint32` lands in `[0, 2^32)`. -/
theorem jsToUint32_lt (x : JSNum) : jsToUint32 x < 4294967296 := by
  rcases x with _ | _ | _ | q
  · norm_num [jsToUint32]
  · norm_num [jsToUint32]
  · norm_num [jsToUint32]
  · show ((ratTrunc q) % (4294967296 : ℤ)).toNat < 4294967296
    have h1 : (0 : ℤ) ≤ ratTrunc q % 4294967296 := Int.emod_nonneg _ (by norm_num)
    have h2 : ratTrunc q % 4294967296 < 4294967296 := Int.emod_lt_of_pos _ (by norm_num)
    omega

/-- Closed form of the PRNG state after `j` draws: the initial `uint32`
plus `j` increments, reduced modulo `2^32`. -/
theorem mulberryRun_closed (t0 : ℕ) (ht : t0 < 4294967296) :
    ∀ j, mulberryRun t0 j = (t0 + j * 0x6d2b79f5) % 4294967296 := by
  intro j
  induction j with
  | zero =>
      show t0 = (t0 + 0 * 0x6d2b79f5) % 4294967296
      omega
  | succ j ih =>
      show (mulberryNext (mulberryRun t0 j)).1 = _
      rw [ih]
      show ((t0 + j * 0x6d2b79f5) % 4294967296 + 0x6d2b79f5) % 4294967296 = _
      omega

/-- Reducing one addend modulo `2^32` does not change a sum modulo `2^32`. -/
theorem add_mod_u32 (a b : ℕ) :
    (a + b % 4294967296) % 4294967296 = (a + b) % 4294967296 := by
  omega

/-- Xor of two `uint32` values is a `uint32` value. -/
theorem xor_lt_u32 (a b : ℕ) (ha : a < 4294967296) (hb : b < 4294967296) :
    a ^^^ b < 4294967296 := by
  have h32 : (4294967296 : ℕ) = 2 ^ 32 := by norm_num
  rw [h32] at ha hb ⊢
  exact xor_lt_two_pow ha hb

/-- The spec-side Mulberry32 value is in `[0, 1)`. -/
theorem mulberrySpecValue_bounds (seed : JSNum) (k : ℕ) :
    0 ≤ mulberrySpecValue seed k ∧ mulberrySpecValue seed k < 1 := by
  unfold mulberrySpecValue
  constructor
  · positivity
  · rw [div_lt_one (by norm_num)]
    have hgen : ∀ n : ℕ, ((n % 4294967296 : ℕ) : ℚ) < 4294967296 := by
      intro n
      have := Nat.mod_lt n (show 0 < 4294967296 by norm_num)
      exact_mod_cast this
    exact hgen _

set_option maxRecDepth 4000 in
/-- C3: each draw of the engine's PRNG equals the spec's Mulberry32
reference bit-exactly (state advanced by `0x6D2B79F5 mod 2^32` per call,
the two mixing rounds with multiplications modulo `2^32`, logical right
shifts, output `uint32 / 2^32`), and the value lies in `[0, 1)`. -/
theorem mulberry_matches_spec (seed : JSNum) (k : ℕ) (hk : 1 ≤ k) :
    samplerPRNGValue seed k = mulberrySpecValue seed k ∧
    0 ≤ samplerPRNGValue seed k ∧ samplerPRNGValue seed k < 1 := by
  have hu : jsToUint32 seed < 4294967296 := jsToUint32_lt seed
  have hrun := mulberryRun_closed (jsToUint32 seed) hu (k - 1)
  have heq : samplerPRNGValue seed k = mulberrySpecValue seed k := by
    unfold samplerPRNGValue mulberrySpecValue mulberryNext
    dsimp only
    rw [hrun]
    have hstate : ((jsToUint32 seed + (k - 1) * 0x6d2b79f5) % 4294967296 + 0x6d2b79f5)
        % 4294967296 = (jsToUint32 seed + k * 0x6d2b79f5) % 4294967296 := by
      omega
    rw [hstate]
    generalize (jsToUint32 seed + k * 0x6d2b79f5) % 4294967296 = st
    rw [Nat.lor_comm 1 st]
    generalize hr1 : ((st ^^^ (st >>> 15)) * (st ||| 1)) % 4294967296 = r1
    have h1 : r1 < 4294967296 := by
      rw [← hr1]
      exact Nat.mod_lt _ (by norm_num)
    rw [Nat.lor_comm 61 r1, add_mod_u32]
    have hr2 : r1 ^^^ ((r1 + ((r1 ^^^ (r1 >>> 7)) * (r1 ||| 61))) % 4294967296)
        < 4294967296 :=
      xor_lt_u32 _ _ h1 (Nat.mod_lt _ (by norm_num))
    have hout : (r1 ^^^ ((r1 + ((r1 ^^^ (r1 >>> 7)) * (r1 ||| 61))) % 4294967296)) ^^^
        ((r1 ^^^ ((r1 + ((r1 ^^^ (r1 >>> 7)) * (r1 ||| 61))) % 4294967296)) >>> 14)
        < 4294967296 := by
      refine xor_lt_u32 _ _ hr2 (lt_of_le_of_lt ?_ hr2)
      rw [Nat.shiftRight_eq_div_pow]
      exact Nat.div_le_self _ _
    rw [Nat.mod_eq_of_lt hout]
  refine ⟨heq, ?_, ?_⟩
  · rw [heq]
    exact (mulberrySpecValue_bounds seed k).1
  · rw [heq]
    exact (mulberrySpecValue_bounds seed k).2

/-- Witness for C3 at seed 0, first draw. -/
theorem mulberry_matches_spec_witness :
    samplerPRNGValue (JSNum.num 0) 1 = mulberrySpecValue (JSNum.num 0) 1 ∧
    0 ≤ samplerPRNGValue (JSNum.num 0) 1 ∧ samplerPRNGValue (JSNum.num 0) 1 < 1 :=
  mulberry_matches_spec (JSNum.num 0) 1 (le_refl 1)

/-! ## Bitstring lemmas -/

/-- With enough fuel, the structural binary printer produces exactly the
big-endian base-2 digits. -/
theorem base2Aux_eq_digits : ∀ (fuel n : ℕ), n ≤ fuel →
    base2Aux fuel n = (Nat.digits 2 n).reverse.map (fun d => if d = 1 then '1' else '0') := by
  intro fuel
  induction fuel with
  | zero =>
      intro n hn
      have hn0 : n = 0 := by omega
      subst hn0
      simp [base2Aux]
  | succ fuel ih =>
      intro n hn
      cases n with
      | zero => simp [base2Aux]
      | succ m =>
          show base2Aux fuel ((m + 1) / 2) ++ [if (m + 1) % 2 = 1 then '1' else '0'] = _
          have hdiv : (m + 1) / 2 ≤ fuel := by
            have := Nat.div_lt_self (Nat.succ_pos m) (by norm_num : 1 < 2)
            omega
          rw [ih ((m + 1) / 2) hdiv]
          rw [Nat.digits_def' (by norm_num : 1 < 2) (Nat.succ_pos m)]
          rw [List.reverse_cons, List.map_append]
          rfl

/-- Horner evaluation of the printed digits: parsing the big-endian
character list recovers `ofDigits` of the little-endian digits. -/
theorem parse_digit_chars : ∀ (ds : List ℕ) (a : ℕ), (∀ d ∈ ds, d < 2) →
    List.foldl (fun acc c => 2 * acc + (if c = '1' then 1 else 0)) a
      (ds.reverse.map (fun d => if d = 1 then '1' else '0'))
      = a * 2 ^ ds.length + Nat.ofDigits 2 ds := by
  intro ds
  induction ds with
  | nil =>
      intro a _
      simp [Nat.ofDigits]
  | cons d l ih =>
      intro a hlt
      rw [List.reverse_cons, List.map_append, List.foldl_append]
      rw [ih a (fun x hx => hlt x (List.mem_cons_of_mem d hx))]
      show 2 * (a * 2 ^ l.length + Nat.ofDigits 2 l)
          + (if (if d = 1 then '1' else '0') = '1' then 1 else 0)
        = a * 2 ^ (d :: l).length + Nat.ofDigits 2 (d :: l)
      have hd : d < 2 := hlt d (List.mem_cons_self d l)
      have hval : (if (if d = 1 then '1' else '0') = '1' then 1 else 0) = d := by
        rcases d with _ | d2
        · norm_num
          decide
        · rcases d2 with _ | d3
          · norm_num
          · omega
      rw [hval, Nat.ofDigits_cons, List.length_cons]
      ring

/-- Leading zero padding does not change the parsed value. -/
theorem parse_padStart (s : List Char) (n : ℕ) :
    parseBinary (padStart s n '0') = parseBinary s := by
  unfold parseBinary padStart
  rw [List.foldl_append]
  have hz : ∀ m, List.foldl (fun acc c => 2 * acc + (if c = '1' then 1 else 0)) 0
      (List.replicate m '0') = 0 := by
    intro m
    induction m with
    | zero => rfl
    | succ m ihm =>
        rw [List.replicate_succ, List.foldl_cons]
        simpa using ihm
  rw [hz]

/-- C9: for `n ≥ 1` and `k < 2^n`, `bitstring(k, n)` has exactly `n`
characters, all `'0'`/`'1'`, and parsing it back as a binary numeral
(MSB first, so q0 leftmost) recovers `k`. -/
theorem bitstring_roundtrip (n k : ℕ) (hn : 1 ≤ n) (hk : k < 2 ^ n) :
    (bitstring k n).length = n ∧
    (∀ c ∈ bitstring k n, c = '0' ∨ c = '1') ∧
    parseBinary (bitstring k n) = k := by
  have hlen2 : (natToBase2 k).length ≤ n := by
    unfold natToBase2
    by_cases hk0 : k = 0
    · rw [if_pos hk0]
      simpa using hn
    · rw [if_neg hk0]
      rw [base2Aux_eq_digits k k (le_refl k)]
      rw [List.length_map, List.length_reverse]
      rw [Nat.digits_len 2 k (by norm_num) hk0]
      have := (Nat.lt_pow_iff_log_lt (by norm_num : 1 < 2) hk0).mp hk
      omega
  refine ⟨?_, ?_, ?_⟩
  · unfold bitstring padStart
    rw [List.length_append, List.length_replicate]
    omega
  · intro c hc
    unfold bitstring padStart at hc
    rw [List.mem_append] at hc
    rcases hc with hc | hc
    · exact Or.inl (List.eq_of_mem_replicate hc)
    · unfold natToBase2 at hc
      by_cases hk0 : k = 0
      · rw [if_pos hk0] at hc
        simp at hc
        exact Or.inl hc
      · rw [if_neg hk0, base2Aux_eq_digits k k (le_refl k)] at hc
        rw [List.mem_map] at hc
        obtain ⟨d, _, hd⟩ := hc
        by_cases hd1 : d = 1
        · rw [if_pos hd1] at hd
          exact Or.inr hd.symm
        · rw [if_neg hd1] at hd
          exact Or.inl hd.symm
  · unfold bitstring
    rw [parse_padStart]
    unfold natToBase2
    by_cases hk0 : k = 0
    · rw [if_pos hk0, hk0]
      rfl
    · rw [if_neg hk0, base2Aux_eq_digits k k (le_refl k)]
      unfold parseBinary
      rw [parse_digit_chars (Nat.digits 2 k) 0
        (fun d hd => Nat.digits_lt_base (by norm_num) hd)]
      rw [Nat.ofDigits_digits]
      ring

/-- Witness for C9 at `n = 3`, `k = 5`. -/
theorem bitstring_roundtrip_witness :
    (bitstring 5 3).length = 3 ∧
    (∀ c ∈ bitstring 5 3, c = '0' ∨ c = '1') ∧
    parseBinary (bitstring 5 3) = 5 :=
  bitstring_roundtrip 3 5 (by decide) (by decide)
